import Mathlib

/-!
Verification of the import-resolution-and-vendoring pipeline of deno-tsc-helper.

The development shallowly embeds the relevant parts of the source:

* src/src/common.js      : readDirRecursive, getIncludeExcludeFiles
* src/src/collectImports.js : collectImports (exclusion, resolution, partition)
* src/mod.js             : generateTypes (cache protocol, merged remote imports,
                           vendor loop, vendored-file rewriter, tsconfig paths)

JavaScript strings are embedded as lists of characters (Str); JS string methods
startsWith / endsWith / includes are embedded as the list prefix / suffix /
infix tests.  JS objects used as string-keyed records are embedded as
association lists with first-key update semantics (JS objects have unique
keys).  Asynchronous effectful code is embedded as explicit traces of actions:
a run that throws midway is a prefix of the full trace.
-/

namespace DenoTscHelper

/-- Embedded JavaScript string: a list of characters. -/
abbrev Str := List Char

/-- Coercion from a Lean string literal to the embedded string type. -/
def str (s : String) : Str := s.data

/-- Embedding of the JS method someString.startsWith(p). -/
def jsStartsWith (s p : Str) : Bool := decide (p <+: s)

/-- Embedding of the JS method someString.endsWith(p). -/
def jsEndsWith (s p : Str) : Bool := decide (p <:+ s)

/-- Embedding of the JS method someString.includes(p). -/
def jsIncludes (s p : Str) : Bool := decide (p <:+: s)

/-- Embedding of someString.split("\n") (src/mod.js line 760). -/
def splitOnNl : Str → List Str
  | [] => [[]]
  | c :: rest =>
    match splitOnNl rest with
    | [] => [[]]
    | l :: ls => if c = '\n' then [] :: l :: ls else (c :: l) :: ls

/-- Embedding of someArray.join("\n") (src/mod.js line 791). -/
def joinNl : List Str → Str
  | [] => []
  | [l] => l
  | l :: rest => l ++ '\n' :: joinNl rest

/-- Embedding of lines.splice(i, 0, x) (src/mod.js lines 774 and 785):
insert x at index i. -/
def spliceAt (lines : List Str) (i : Nat) (x : Str) : List Str :=
  lines.take i ++ [x] ++ lines.drop i

/-- Embedding of JS Set.add: append the element if it is not present yet
(JS Sets preserve insertion order). -/
def jsSetAdd (acc : List Str) (x : Str) : List Str :=
  if acc.contains x then acc else acc ++ [x]

/-- Embedding of new Set(list) followed by Array.from (e.g. src/mod.js
lines 574-575 and 922). -/
def jsSetOf (l : List Str) : List Str := l.foldl jsSetAdd []

/-- Number of occurrences of a string in a list of strings. -/
def countOcc (s : Str) (l : List Str) : Nat := (l.filter (fun x => x = s)).length

/-- Lookup in a string-keyed JS object embedded as an association list. -/
def lookupKey {α : Type} : List (Str × α) → Str → Option α
  | [], _ => none
  | (k', v) :: rest, k => if k' = k then some v else lookupKey rest k

/-- Embedding of the JS object assignment obj[k] = v: replace the value at an
existing key, otherwise append the new key (JS objects have unique keys and
preserve insertion order). -/
def setKey {α : Type} : List (Str × α) → Str → α → List (Str × α)
  | [], k, v => [(k, v)]
  | (k', v') :: rest, k, v =>
    if k' = k then (k, v) :: rest else (k', v') :: setKey rest k v

/-!
Import collection (src/src/collectImports.js).

The import-map resolver (the import_maps library's resolveModuleSpecifier) is
an external collaborator; it is passed in as an abstract function from
the importer's file path and the import specifier to a resolved URL.
-/

/-- An import found in a user file (ImportData in src/src/collectImports.js). -/
structure ImportData where
  importerFilePath : Str
  importSpecifier : Str
deriving DecidableEq

/-- Result of the external import-map resolution: the protocol and the href of
the resolved URL object. -/
structure UrlRes where
  protocol : Str
  href : Str
deriving DecidableEq

/-- A collected remote import (RemoteImportData in src/src/collectImports.js);
resolvedHref embeds resolvedSpecifier.href. -/
structure RemoteImportData where
  importerFilePath : Str
  importSpecifier : Str
  resolvedHref : Str
deriving DecidableEq

/-- The needsAmbientModuleImportSpecifiers set of collectImports
(src/src/collectImports.js lines 184-190): every import specifier that occurs
in excludeUrls is added to a JS Set. -/
def needsAmbientOf (allImports : List ImportData) (excludeUrls : List Str) : List Str :=
  allImports.foldl
    (fun acc i =>
      if excludeUrls.contains i.importSpecifier then jsSetAdd acc i.importSpecifier else acc)
    []

/-- One step of the remoteImports loop of collectImports
(src/src/collectImports.js lines 194-208): skip specifiers in excludeUrls,
resolve against the user import map, skip resolutions whose href is in
excludeUrls and resolutions to local files. -/
def collectRemoteImport1 (excludeUrls : List Str) (resolver : Str → Str → UrlRes)
    (i : ImportData) : Option RemoteImportData :=
  if excludeUrls.contains i.importSpecifier then none
  else
    let r := resolver i.importerFilePath i.importSpecifier
    if excludeUrls.contains r.href then none
    else if r.protocol = str "file:" then none
    else some ⟨i.importerFilePath, i.importSpecifier, r.href⟩

/-- The remoteImports list of collectImports (src/src/collectImports.js
lines 192-208). -/
def collectRemoteImports (allImports : List ImportData) (excludeUrls : List Str)
    (resolver : Str → Str → UrlRes) : List RemoteImportData :=
  allImports.filterMap (collectRemoteImport1 excludeUrls resolver)

/-!
Merging remote imports by resolved specifier and the vendor loop
(src/mod.js lines 473-624).
-/

/-- One step of building mergedRemoteImports (src/mod.js lines 479-487): push
the record into the group of its resolved specifier, creating the group at the
end of the map if it does not exist yet (JS Maps preserve insertion order). -/
def mergeInsert (acc : List (Str × List RemoteImportData)) (r : RemoteImportData) :
    List (Str × List RemoteImportData) :=
  if acc.any (fun p => p.1 = r.resolvedHref) then
    acc.map (fun p => if p.1 = r.resolvedHref then (p.1, p.2 ++ [r]) else p)
  else acc ++ [(r.resolvedHref, [r])]

/-- The mergedRemoteImports map of generateTypes (src/mod.js lines 473-487):
remote imports grouped by resolvedSpecifier.href. -/
def mergedRemoteImportsOf (imports : List RemoteImportData) :
    List (Str × List RemoteImportData) :=
  imports.foldl mergeInsert []

/-- A vendoring/fetch operation performed by the vendor loop: either a
'deno vendor' invocation or an npm registry fetch for one resolved
specifier. -/
inductive VendorAction where
  | vendorOp (specifier : Str)
  | npmFetch (specifier : Str)
deriving DecidableEq

/-- The resolved specifier a vendor action is performed for. -/
def vendorActionSpec : VendorAction → Str
  | .vendorOp s => s
  | .npmFetch s => s

/-- The error thrown by generateTypes when 'deno vendor' exits with a failure
status (src/mod.js lines 569-607): the message names the failing resolved
specifier and the (deduplicated) importing file paths, and suggests adding the
specifier to excludeUrls. -/
structure VendorError where
  specifier : Str
  importerFilePaths : List Str
deriving DecidableEq

/-- The vendor loop of generateTypes (src/mod.js lines 520-622).  For each
merged entry: skip it when it was vendored in the previous run (line 524);
for npm: specifiers fetch the package from the registry (lines 526-555);
otherwise run 'deno vendor', and when that exits unsuccessfully throw a fatal
error (lines 557-611).  The fails argument tells which resolved specifiers the
'deno vendor' subprocess fails on. -/
def vendorLoop (entries : List (Str × List RemoteImportData)) (cached : List Str)
    (fails : Str → Bool) : Except VendorError (List VendorAction) :=
  match entries with
  | [] => .ok []
  | (spec, datas) :: rest =>
    if cached.contains spec then vendorLoop rest cached fails
    else if jsStartsWith spec (str "npm:") then
      match vendorLoop rest cached fails with
      | .error e => .error e
      | .ok acts => .ok (.npmFetch spec :: acts)
    else if fails spec then
      .error ⟨spec, jsSetOf (datas.map (·.importerFilePath))⟩
    else
      match vendorLoop rest cached fails with
      | .error e => .error e
      | .ok acts => .ok (.vendorOp spec :: acts)

/-- The temporary import map written before vendoring (src/mod.js
lines 491-518): the user's import map entries, then every url of excludeUrls
mapped to the dummy module, then the npm:typescript self-import mapped to the
dummy module. -/
def buildTemporaryImportMap (userImports : List (Str × Str)) (excludeUrls : List Str)
    (dummyUrl : Str) : List (Str × Str) :=
  setKey (excludeUrls.foldl (fun acc url => setKey acc url dummyUrl) userImports)
    (str "npm:typescript@4.7.4") dummyUrl

/-!
The persisted cache and the trace of one generateTypes run
(src/mod.js lines 186-929).
-/

/-- The persisted cache file (CacheFileData in src/mod.js lines 206-212); every
field is optional in the JSON. -/
structure CacheFileData where
  vendoredImports : Option (List Str) := none
  denoTypesVersion : Option Str := none
  fetchedTypeRoots : Option (List (Str × Str)) := none
  fetchedExactTypeModules : Option (List (Str × Str)) := none
deriving DecidableEq

/-- An argument to updateCacheData (src/mod.js lines 252-262): the subset of
cache fields being overwritten; none means the field is not in setProps. -/
structure CacheSetProps where
  vendoredImports : Option (List Str) := none
  denoTypesVersion : Option Str := none
  fetchedTypeRoots : Option (List (Str × Str)) := none
  fetchedExactTypeModules : Option (List (Str × Str)) := none
deriving DecidableEq

/-- The JS spread ...newCacheData, ...setProps of updateCacheData: fields
present in setProps override, the rest are kept. -/
def applySetProps (c : CacheFileData) (p : CacheSetProps) : CacheFileData where
  vendoredImports := match p.vendoredImports with
    | some v => some v
    | none => c.vendoredImports
  denoTypesVersion := match p.denoTypesVersion with
    | some v => some v
    | none => c.denoTypesVersion
  fetchedTypeRoots := match p.fetchedTypeRoots with
    | some v => some v
    | none => c.fetchedTypeRoots
  fetchedExactTypeModules := match p.fetchedExactTypeModules with
    | some v => some v
    | none => c.fetchedExactTypeModules

/-- The observable effects of generateTypes other than cache-file writes, in
the order the claims need them.  The .d.ts fetches for deno-types comments
(src/mod.js lines 795-828) touch neither the cache nor the vendor/tsconfig
state and are omitted from the trace. -/
inductive PlainAction where
  | fetchTypeRoot (folderName : Str)
  | fetchExactType (specifier : Str)
  | writeTempImportMap
  | vendorOp (specifier : Str)
  | npmFetch (specifier : Str)
  | removeTempImportMap
  | rewriteFile (index : Nat)
  | writeAmbientFile
  | writeTsconfigFile
deriving DecidableEq

/-- One effect of a generateTypes run: either a write of the cache file (with
the complete data written) or a plain action. -/
inductive Action where
  | cacheWrite (data : CacheFileData)
  | plain (a : PlainAction)
deriving DecidableEq

/-- An event of the run model: a call to updateCacheData with its setProps, or
a plain action. -/
inductive Event where
  | write (p : CacheSetProps)
  | act (a : PlainAction)
deriving DecidableEq

/-- Replay a list of events into the trace of actions, threading newCacheData
through the updateCacheData calls exactly as src/mod.js lines 252-262 do. -/
def eventsToActions (c : CacheFileData) : List Event → List Action
  | [] => []
  | .write p :: rest =>
    .cacheWrite (applySetProps c p) :: eventsToActions (applySetProps c p) rest
  | .act a :: rest => .plain a :: eventsToActions c rest

/-- The value of newCacheData after a list of events. -/
def stateAfterEvents (c : CacheFileData) : List Event → CacheFileData
  | [] => c
  | .write p :: rest => stateAfterEvents (applySetProps c p) rest
  | .act _ :: rest => stateAfterEvents c rest

/-- Whether a list of events contains an updateCacheData call. -/
def hasWrite : List Event → Bool
  | [] => false
  | .write _ :: _ => true
  | .act _ :: rest => hasWrite rest

/-- The cache file on disk after a (possibly truncated) trace of actions:
the data of the last cache write, or the initial file when nothing was
written yet (none when the file does not exist). -/
def persistedAfter (initDisk : Option CacheFileData) (acts : List Action) :
    Option CacheFileData :=
  acts.foldl (fun s a => match a with | .cacheWrite d => some d | .plain _ => s) initDisk

/-- The vendoredImports list an on-disk cache file yields on the next run
(src/mod.js lines 232-241): empty when the file or the field is missing. -/
def persistedVendoredList (s : Option CacheFileData) : List Str :=
  (s.bind (·.vendoredImports)).getD []

/-- The allCached check of generateTypes (src/mod.js lines 428-435): every
collected resolved specifier href is already in the cached set. -/
def allCachedCheck (cached : List Str) (imports : List RemoteImportData) : Bool :=
  imports.all (fun r => cached.contains r.resolvedHref)

/-- The inputs of one generateTypes run that the cache protocol depends on. -/
structure RunConfig where
  cacheOnDisk : Option CacheFileData
  desiredDenoTypesVersion : Str
  extraTypeRoots : List (Str × Str)
  exactTypeModules : List (Str × Str)
  remoteImports : List RemoteImportData
  needsAmbient : List Str
  numVendoredFiles : Nat

/-- cachedImportSpecifiers of src/mod.js lines 232-241. -/
def cachedImportSpecifiersOf (c : RunConfig) : List Str :=
  persistedVendoredList c.cacheOnDisk

/-- denoTypesVersion of src/mod.js line 243 (empty string when missing). -/
def denoTypesVersionOf (c : RunConfig) : Str :=
  (c.cacheOnDisk.bind (·.denoTypesVersion)).getD []

/-- cachedTypeRoots of src/mod.js line 244. -/
def cachedTypeRootsOf (c : RunConfig) : List (Str × Str) :=
  (c.cacheOnDisk.bind (·.fetchedTypeRoots)).getD []

/-- cachedExactTypeModules of src/mod.js line 245. -/
def cachedExactTypeModulesOf (c : RunConfig) : List (Str × Str) :=
  (c.cacheOnDisk.bind (·.fetchedExactTypeModules)).getD []

/-- The initial newCacheData (src/mod.js lines 247-250): a copy of the loaded
cache, or an empty object when the file did not exist. -/
def initNewCacheData (c : RunConfig) : CacheFileData :=
  c.cacheOnDisk.getD {}

/-- The allCached early-exit condition of this run (src/mod.js
lines 428-446). -/
def allCachedInit (c : RunConfig) : Bool :=
  allCachedCheck (cachedImportSpecifiersOf c) c.remoteImports

/-- The events before the early-exit check (src/mod.js lines 285-381): the
optional deno-types regeneration write, the clear-then-refill write pair for
fetchedTypeRoots with the conditional fetches in between, and the same pair
for fetchedExactTypeModules. -/
def basePreEvents (c : RunConfig) : List Event :=
  (if denoTypesVersionOf c ≠ c.desiredDenoTypesVersion then
    [.write { denoTypesVersion := some c.desiredDenoTypesVersion }]
  else [])
  ++ [.write { fetchedTypeRoots := some [] }]
  ++ (c.extraTypeRoots.flatMap fun fu =>
      if lookupKey (cachedTypeRootsOf c) fu.1 ≠ some fu.2 then [.act (.fetchTypeRoot fu.1)]
      else [])
  ++ [.write { fetchedTypeRoots := some c.extraTypeRoots }]
  ++ [.write { fetchedExactTypeModules := some [] }]
  ++ (c.exactTypeModules.flatMap fun su =>
      if lookupKey (cachedExactTypeModulesOf c) su.1 ≠ some su.2 then
        [.act (.fetchExactType su.1)]
      else [])
  ++ [.write { fetchedExactTypeModules := some c.exactTypeModules }]

/-- The defensive reset of vendoredImports (src/mod.js lines 448-456),
performed only when a cache file existed. -/
def resetEvents (c : RunConfig) : List Event :=
  if c.cacheOnDisk.isSome then [.write { vendoredImports := some [] }] else []

/-- The vendor-loop actions of a run in which no 'deno vendor' invocation
fails (src/mod.js lines 520-622): one operation per merged entry that is not
in the previous run's vendored set. -/
def vendorActionsNoFail (entries : List (Str × List RemoteImportData))
    (cached : List Str) : List PlainAction :=
  match entries with
  | [] => []
  | (spec, _) :: rest =>
    if cached.contains spec then vendorActionsNoFail rest cached
    else if jsStartsWith spec (str "npm:") then
      .npmFetch spec :: vendorActionsNoFail rest cached
    else
      .vendorOp spec :: vendorActionsNoFail rest cached

/-- The events between the defensive reset and the final cache write
(src/mod.js lines 458-918): write the temporary import map, run the vendor
loop, remove the temporary import map, rewrite the vendored files, write the
ambient-modules file when there are excluded specifiers, and write
tsconfig.json. -/
def midEvents (c : RunConfig) : List Event :=
  [.act .writeTempImportMap]
  ++ ((vendorActionsNoFail (mergedRemoteImportsOf c.remoteImports)
        (cachedImportSpecifiersOf c)).map .act)
  ++ [.act .removeTempImportMap]
  ++ ((List.range c.numVendoredFiles).map (fun i => .act (.rewriteFile i)))
  ++ (if c.needsAmbient ≠ [] then [.act .writeAmbientFile] else [])
  ++ [.act .writeTsconfigFile]

/-- The final cache write (src/mod.js lines 920-926): the complete
deduplicated set of resolved specifier hrefs. -/
def finalEvents (c : RunConfig) : List Event :=
  [.write { vendoredImports := some (jsSetOf (c.remoteImports.map (·.resolvedHref))) }]

/-- The events of one complete generateTypes run: when the allCached check
passes the function returns before the reset (src/mod.js line 444). -/
def runEvents (c : RunConfig) : List Event :=
  basePreEvents c
    ++ (if allCachedInit c then []
        else resetEvents c ++ midEvents c ++ finalEvents c)

/-- The action trace of one complete generateTypes run.  A run that throws at
some point performs a prefix of this trace. -/
def runActions (c : RunConfig) : List Action :=
  eventsToActions (initNewCacheData c) (runEvents c)

/-- Number of actions up to and including the defensive vendoredImports reset
(one action per event). -/
def preVendorLen (c : RunConfig) : Nat :=
  (basePreEvents c).length + (resetEvents c).length

/-- Whether an action is a vendoring/fetch operation for a remote import. -/
def isVendorAction : Action → Bool
  | .plain (.vendorOp _) => true
  | .plain (.npmFetch _) => true
  | _ => false

/-- Whether an action is a vendored-file rewrite. -/
def isRewriteAction : Action → Bool
  | .plain (.rewriteFile _) => true
  | _ => false

/-!
The vendored-file rewriter (src/mod.js lines 697-793).

Parsing, transforming and printing with the TypeScript library is external;
it is passed in as an abstract function tp from the file content to the
printed transformed content together with the flag telling whether the
script kind is one of JS / JSX / TS / TSX (the kinds that receive a
ts-nocheck comment).  tp returns none when parseFileAst yields no source
file, in which case the loop continues without writing (line 752).
-/

/-- The sentinel comment (src/mod.js line 712), built by concatenating two
halves exactly as the source does. -/
def modifiedComment : Str := str "// tsc_" ++ str "helper_modified"

/-- The ts-nocheck comment inserted for checkable script kinds
(src/mod.js line 785). -/
def tsNocheckComment : Str := str "// @ts-nocheck"

/-- The start of a triple-slash reference directive
(src/mod.js lines 302 and 788). -/
def tripleSlashStart : Str := str "/// <reference"

/-- The scriptStart computation (src/mod.js lines 765-771): 1 when the first
line is a shebang line, otherwise 0. -/
def scriptStartOf (lines : List Str) : Nat :=
  match lines with
  | [] => 0
  | l :: _ => if jsStartsWith l (str "#!") then 1 else 0

/-- The comment insertion of the rewriter (src/mod.js lines 760-791): split
the printed output into lines, insert the sentinel at scriptStart, and for
checkable script kinds insert ts-nocheck at scriptStart as well and drop
triple-slash reference lines; finally join the lines back. -/
def insertModifications (modifiedText : Str) (isNocheckKind : Bool) : Str :=
  let lines := splitOnNl modifiedText
  let s := scriptStartOf lines
  let lines1 := spliceAt lines s modifiedComment
  let lines2 :=
    if isNocheckKind then
      (spliceAt lines1 s tsNocheckComment).filter
        (fun l => ¬ jsStartsWith l tripleSlashStart)
    else lines1
  joinNl lines2

/-- Processing of one vendored file by the rewriter loop (src/mod.js
lines 717-793): skip the file when its content already contains the sentinel
(line 726, before any parsing); otherwise parse/transform/print via tp and
write the content with the inserted comments.  The result is the written
content, or none when nothing is written. -/
def processVendoredFile (tp : Str → Option (Str × Bool)) (content : Str) :
    Option Str :=
  if jsIncludes content modifiedComment then none
  else
    match tp content with
    | none => none
    | some mk => some (insertModifications mk.1 mk.2)

/-!
Resolution into the vendor directory, the import-specifier transformer, and
the tsconfig path table (src/mod.js lines 626-695 and 830-918).
-/

/-- A URL produced by the external import-map resolution together with the
local path components it denotes when its protocol is file:
(fromFileUrl followed by splitting at the path separators). -/
structure UrlPath where
  protocol : Str
  path : List Str
deriving DecidableEq

/-- Longest common component run of two paths, as computed by
common([a, b]) of the path library for two normalized absolute paths. -/
def commonRun : List Str → List Str → List Str
  | a :: as', b :: bs => if a = b then a :: commonRun as' bs else []
  | _, _ => []

/-- resolveModuleSpecifierAll (src/mod.js lines 626-645): try the parsed
maps in order; return the local path of the first resolution with
file: protocol whose common path run with the output directory is the
output directory itself; none otherwise.  Paths are embedded as component
lists, so resolve(common([resolvedPath, outputDir])) == outputDir becomes
commonRun resolvedPath outputDir = outputDir. -/
def resolveModuleSpecifierAll (maps : List (Str → Str → UrlPath))
    (outputDir : List Str) (baseUrl moduleSpecifier : Str) : Option (List Str) :=
  match maps with
  | [] => none
  | m :: rest =>
    let resolved := m baseUrl moduleSpecifier
    if resolved.protocol ≠ str "file:" then
      resolveModuleSpecifierAll rest outputDir baseUrl moduleSpecifier
    else if commonRun resolved.path outputDir ≠ outputDir then
      resolveModuleSpecifierAll rest outputDir baseUrl moduleSpecifier
    else some resolved.path

/-- The string form of a component path: the components joined by the path
separator (fromFileUrl yields this string form of the resolved URL's
path). -/
def joinSlash : List Str → Str
  | [] => []
  | [l] => l
  | l :: rest => l ++ '/' :: joinSlash rest

/-- Embedding of the JS expression someString.slice(0, -n): drop the last n
characters. -/
def jsDropEnd (s : Str) (n : Nat) : Str := s.take (s.length - n)

/-- The specifier rewrite of the transformer (src/mod.js lines 671-687):
when the specifier resolves into the vendor tree via the parsed import maps,
replace it by the local path, renaming a .ts ending to .js; otherwise leave
the literal unchanged. -/
def transformSpecifier (resolveAll : Str → Option (List Str)) (s : Str) : Str :=
  match resolveAll s with
  | none => s
  | some path =>
    let newSpecifier := joinSlash path
    if jsEndsWith newSpecifier (str ".ts") then jsDropEnd newSpecifier 3 ++ str ".js"
    else newSpecifier

/-- A statement of a vendored module: an import declaration or an export
declaration carrying a module specifier string, or anything else (the
transformer only rewrites string literals whose parent is an import or an
export declaration, src/mod.js lines 664-670). -/
inductive ModuleStatement where
  | importDecl (specifier : Str)
  | exportDecl (specifier : Str)
  | other
deriving DecidableEq

/-- The module specifier carried by a statement, if any. -/
def stmtSpecifier : ModuleStatement → Option Str
  | .importDecl s => some s
  | .exportDecl s => some s
  | .other => none

/-- The transformer applied to a whole vendored module (src/mod.js
lines 653-695): every import/export specifier is rewritten, all other
nodes are unchanged. -/
def transformFile (resolveAll : Str → Option (List Str)) :
    List ModuleStatement → List ModuleStatement :=
  List.map fun st =>
    match st with
    | .importDecl s => .importDecl (transformSpecifier resolveAll s)
    | .exportDecl s => .exportDecl (transformSpecifier resolveAll s)
    | .other => .other

/-!
The tsconfig.json paths object (src/mod.js lines 830-918).
-/

/-- The entries pushed for remote imports (src/mod.js lines 874-887): for
every collected remote import whose resolved href resolves into the vendor
tree, the pair of its literal import specifier and the local path string. -/
def tsConfigPathsRemote (maps : List (Str → Str → UrlPath)) (outputDir : List Str)
    (remoteImports : List RemoteImportData) : List (Str × Str) :=
  remoteImports.filterMap fun r =>
    match resolveModuleSpecifierAll maps outputDir r.importerFilePath r.resolvedHref with
    | none => none
    | some p => some (r.importSpecifier, joinSlash p)

/-- The entries for the exactTypeModules option (src/mod.js lines 352-366 and
889-894): every configured specifier mapped to the index.d.ts destination
computed for it (the sanitized destination path is abstracted by dest). -/
def tsConfigPathsExact (exactTypeModules : List (Str × Str)) (dest : Str → Str) :
    List (Str × Str) :=
  exactTypeModules.map fun su => (su.1, dest su.1)

/-- The npmImports map (src/mod.js lines 466-471 and 526-555): for every
merged entry that is not cached, whose key is an npm: specifier and whose
registry data declares a types entry found in the package contents at
destination npmDest, every import record of the group is mapped from its
literal import specifier to that destination. -/
def npmImportsList (entries : List (Str × List RemoteImportData)) (cached : List Str)
    (npmDest : Str → Option Str) : List (Str × Str) :=
  entries.foldl
    (fun acc e =>
      if cached.contains e.1 then acc
      else if ¬ jsStartsWith e.1 (str "npm:") then acc
      else
        match npmDest e.1 with
        | none => acc
        | some d => e.2.foldl (fun a dd => setKey a dd.importSpecifier d) acc)
    []

/-- The final compilerOptions.paths object (src/mod.js lines 900-907):
starting from the paths of a pre-existing tsconfig.json at the same location
(lines 836-852), every computed (url, path) pair is written as obj[url] =
[path], and then every extraPaths entry is written over it. -/
def tsConfigPathsObjectFinal (existing : List (Str × List Str))
    (tsConfigPaths : List (Str × Str)) (extraPaths : List (Str × List Str)) :
    List (Str × List Str) :=
  extraPaths.foldl (fun o kv => setKey o kv.1 kv.2)
    (tsConfigPaths.foldl (fun o kv => setKey o kv.1 [kv.2]) existing)

/-- One line of the ambient modules file (src/mod.js line 868). -/
def ambientLine (specifier : Str) : Str :=
  str "declare module \"" ++ specifier ++ str "\";"

/-- The content of the ambient modules file (src/mod.js lines 866-869): one
declare-module line, terminated by a newline, per specifier needing an
ambient module. -/
def ambientContent (specifiers : List Str) : Str :=
  specifiers.foldl (fun acc s => acc ++ ambientLine s ++ ['\n']) []

/-!
Include/exclude expansion (src/src/common.js lines 11-99).
-/

/-- A directory entry of the model file system. -/
inductive FsEntry where
  | file (name : Str)
  | dir (name : Str) (children : List FsEntry)

/-- The name of an entry. -/
def entryName : FsEntry → Str
  | .file n => n
  | .dir n _ => n

mutual

/-- Handling of one directory entry by readDirRecursive (src/src/common.js
lines 27-31): directories are walked recursively and files are yielded.  The
recursive call on line 28 passes no filter, so the caller's filter is only
ever applied at the top level; this is transcribed faithfully. -/
def readDirEntry (dirPath : List Str) : FsEntry → List (List Str)
  | .file n => [dirPath ++ [n]]
  | .dir n children => readDirList (dirPath ++ [n]) none children

/-- readDirRecursive (src/src/common.js lines 24-33) over the entries of one
directory: entries rejected by the filter are skipped entirely. -/
def readDirList (dirPath : List Str) (filt : Option (FsEntry → Bool)) :
    List FsEntry → List (List Str)
  | [] => []
  | e :: rest =>
    (if (match filt with | some f => f e | none => true) then readDirEntry dirPath e
     else [])
      ++ readDirList dirPath filt rest

end

/-- An include path after Deno.stat (src/src/common.js lines 70-76): either a
plain file or a directory with its entries. -/
inductive IncludeTarget where
  | file (absolutePath : List Str)
  | dir (absolutePath : List Str) (entries : List FsEntry)

/-- The filter built by getIncludeExcludeFiles (src/src/common.js
lines 78-81): reject entries whose name is in the exclude list. -/
def excludeFilter (exclude : List Str) : FsEntry → Bool :=
  fun e => ¬ exclude.contains (entryName e)

/-- The extension check of getIncludeExcludeFiles (src/src/common.js
lines 83-90): the file path ends with one of the extensions.  The source
checks endsWith on the full path string; since the extensions contain no
path separator this is the check on the last component. -/
def hasValidExtension (extensions : List Str) (filePath : List Str) : Bool :=
  extensions.any fun ext => jsEndsWith ((filePath.getLast?).getD []) ext

/-- getIncludeExcludeFiles (src/src/common.js lines 63-99): files named
directly by an include path are pushed as they are; an include path naming a
directory is walked with the exclude filter and only walked files with a
recognized extension are kept. -/
def getIncludeExcludeFiles (includeTargets : List IncludeTarget) (exclude : List Str)
    (extensions : List Str) : List (List Str) :=
  includeTargets.foldl
    (fun files t =>
      match t with
      | .dir p entries =>
        files ++ (readDirList p (some (excludeFilter exclude)) entries).filter
          (hasValidExtension extensions)
      | .file p => files ++ [p])
    []

/-!
Helper lemmas about the embedded string operations.
-/

theorem joinNl_pair (l m : Str) (rest : List Str) :
    joinNl (l :: m :: rest) = l ++ '\n' :: joinNl (m :: rest) := rfl

theorem splitOnNl_cons (c : Char) (rest : Str) :
    splitOnNl (c :: rest)
      = match splitOnNl rest with
        | [] => [[]]
        | l :: ls => if c = '\n' then [] :: l :: ls else (c :: l) :: ls := rfl

theorem splitOnNl_ne_nil (s : Str) : splitOnNl s ≠ [] := by
  induction s with
  | nil => simp [splitOnNl]
  | cons c rest ih =>
    rw [splitOnNl_cons]
    cases h : splitOnNl rest with
    | nil => simp
    | cons l ls =>
      by_cases hc : c = '\n' <;> simp [hc]

theorem mem_splitOnNl_no_newline {s : Str} {l : Str} (h : l ∈ splitOnNl s) :
    '\n' ∉ l := by
  induction s generalizing l with
  | nil =>
    simp [splitOnNl] at h
    simp [h]
  | cons c rest ih =>
    rw [splitOnNl_cons] at h
    cases hs : splitOnNl rest with
    | nil => exact absurd hs (splitOnNl_ne_nil rest)
    | cons l' ls =>
      rw [hs] at h
      have hl' : '\n' ∉ l' := ih (hs ▸ List.mem_cons_self l' ls)
      change l ∈ (if c = '\n' then [] :: l' :: ls else (c :: l') :: ls) at h
      by_cases hc : c = '\n'
      · rw [if_pos hc] at h
        rcases List.mem_cons.mp h with h1 | h1
        · simp [h1]
        · rcases List.mem_cons.mp h1 with h2 | h2
          · exact h2 ▸ hl'
          · exact ih (hs ▸ List.mem_cons_of_mem l' h2)
      · rw [if_neg hc] at h
        rcases List.mem_cons.mp h with h1 | h1
        · subst h1
          intro hmem
          rcases List.mem_cons.mp hmem with h2 | h2
          · exact hc h2.symm
          · exact hl' h2
        · exact ih (hs ▸ List.mem_cons_of_mem l' h1)

theorem splitOnNl_of_no_newline {l : Str} (h : '\n' ∉ l) : splitOnNl l = [l] := by
  induction l with
  | nil => simp [splitOnNl]
  | cons c cs ih =>
    simp only [List.mem_cons, not_or] at h
    have hc : ¬ c = '\n' := fun hc => h.1 hc.symm
    rw [splitOnNl_cons, ih h.2]
    simp [hc]

theorem splitOnNl_append_newline {l : Str} (t : Str) (h : '\n' ∉ l) :
    splitOnNl (l ++ '\n' :: t) = l :: splitOnNl t := by
  induction l with
  | nil =>
    rw [List.nil_append, splitOnNl_cons]
    cases hs : splitOnNl t with
    | nil => exact absurd hs (splitOnNl_ne_nil t)
    | cons l' ls => simp
  | cons c cs ih =>
    simp only [List.mem_cons, not_or] at h
    have hc : ¬ c = '\n' := fun hc => h.1 hc.symm
    rw [List.cons_append, splitOnNl_cons, ih h.2]
    simp [hc]

theorem splitOnNl_joinNl {L : List Str} (hne : L ≠ [])
    (h : ∀ l ∈ L, '\n' ∉ l) : splitOnNl (joinNl L) = L := by
  induction L with
  | nil => exact absurd rfl hne
  | cons l rest ih =>
    cases rest with
    | nil =>
      rw [show joinNl [l] = l from rfl, splitOnNl_of_no_newline (h l (List.mem_cons_self _ _))]
    | cons m rest' =>
      rw [joinNl_pair, splitOnNl_append_newline _ (h l (List.mem_cons_self _ _)),
        ih (by simp) (fun x hx => h x (List.mem_cons_of_mem _ hx))]

theorem infix_joinNl_of_mem {L : List Str} {l : Str} (h : l ∈ L) :
    l <:+: joinNl L := by
  induction L with
  | nil => simp at h
  | cons a rest ih =>
    cases rest with
    | nil =>
      simp at h
      subst h
      exact List.infix_refl _
    | cons b rest' =>
      rw [joinNl_pair]
      rcases List.mem_cons.mp h with h1 | h1
      · rw [h1]
        exact (List.prefix_append a ('\n' :: joinNl (b :: rest'))).isInfix
      · exact (ih h1).trans
          ((List.suffix_cons '\n' (joinNl (b :: rest'))).trans
            (List.suffix_append a _)).isInfix

theorem jsIncludes_of_mem_lines {L : List Str} {l : Str} (h : l ∈ L) :
    jsIncludes (joinNl L) l = true := by
  rw [jsIncludes, decide_eq_true_eq]
  exact infix_joinNl_of_mem h

theorem mem_spliceAt_self (lines : List Str) (i : Nat) (x : Str) :
    x ∈ spliceAt lines i x := by
  rw [spliceAt]
  exact List.mem_append.mpr (Or.inl (List.mem_append.mpr (Or.inr (List.mem_singleton.mpr rfl))))

theorem mem_of_mem_spliceAt {lines : List Str} {i : Nat} {x l : Str}
    (h : l ∈ spliceAt lines i x) : l ∈ lines ∨ l = x := by
  rw [spliceAt] at h
  rcases List.mem_append.mp h with h1 | h1
  · rcases List.mem_append.mp h1 with h2 | h2
    · exact Or.inl (List.mem_of_mem_take h2)
    · exact Or.inr (List.mem_singleton.mp h2)
  · exact Or.inl (List.mem_of_mem_drop h1)

theorem spliceAt_cons_one (l₀ : Str) (rest : List Str) (x : Str) :
    spliceAt (l₀ :: rest) 1 x = l₀ :: x :: rest := by
  simp [spliceAt]

theorem spliceAt_zero (lines : List Str) (x : Str) :
    spliceAt lines 0 x = x :: lines := by
  simp [spliceAt]

theorem spliceAt_ne_nil (lines : List Str) (i : Nat) (x : Str) :
    spliceAt lines i x ≠ [] := by
  rw [spliceAt]
  intro h
  have := congrArg List.length h
  simp at this

theorem mem_spliceAt_of_mem {lines : List Str} {i : Nat} {x l : Str}
    (h : l ∈ lines) : l ∈ spliceAt lines i x := by
  rw [spliceAt]
  have h' : l ∈ lines.take i ++ lines.drop i := by
    rw [List.take_append_drop]
    exact h
  rcases List.mem_append.mp h' with h1 | h1
  · exact List.mem_append.mpr (Or.inl (List.mem_append.mpr (Or.inl h1)))
  · exact List.mem_append.mpr (Or.inr h1)

theorem shebang_not_tripleSlash {l : Str} (h : jsStartsWith l (str "#!") = true) :
    jsStartsWith l tripleSlashStart = false := by
  rw [jsStartsWith, decide_eq_true_eq] at h
  rw [jsStartsWith, decide_eq_false_iff_not]
  intro h'
  rcases h with ⟨t, ht⟩
  rcases h' with ⟨t', ht'⟩
  rw [← ht] at ht'
  simp [str, tripleSlashStart] at ht'

/-!
Lemmas about the vendored-file rewriter.
-/

theorem no_newline_modifiedComment : '\n' ∉ modifiedComment := by decide

theorem no_newline_tsNocheckComment : '\n' ∉ tsNocheckComment := by decide

theorem keepPred_modifiedComment :
    (fun l => ¬ jsStartsWith l tripleSlashStart : Str → Bool) modifiedComment = true := by
  decide

theorem insertModifications_lines_false (m : Str) :
    splitOnNl (insertModifications m false)
      = spliceAt (splitOnNl m) (scriptStartOf (splitOnNl m)) modifiedComment := by
  rw [insertModifications]
  simp only [Bool.false_eq_true, if_false]
  apply splitOnNl_joinNl (spliceAt_ne_nil _ _ _)
  intro l hl
  rcases mem_of_mem_spliceAt hl with h1 | h1
  · exact mem_splitOnNl_no_newline h1
  · exact h1 ▸ no_newline_modifiedComment

theorem insertModifications_lines_true (m : Str) :
    splitOnNl (insertModifications m true)
      = (spliceAt (spliceAt (splitOnNl m) (scriptStartOf (splitOnNl m)) modifiedComment)
          (scriptStartOf (splitOnNl m)) tsNocheckComment).filter
          (fun l => ¬ jsStartsWith l tripleSlashStart) := by
  rw [insertModifications]
  simp only [if_true]
  apply splitOnNl_joinNl
  · apply List.ne_nil_of_mem (a := modifiedComment)
    rw [List.mem_filter]
    exact ⟨mem_spliceAt_of_mem (mem_spliceAt_self _ _ _), keepPred_modifiedComment⟩
  · intro l hl
    rcases mem_of_mem_spliceAt (List.mem_of_mem_filter hl) with h1 | h1
    · rcases mem_of_mem_spliceAt h1 with h2 | h2
      · exact mem_splitOnNl_no_newline h2
      · exact h2 ▸ no_newline_modifiedComment
    · exact h1 ▸ no_newline_tsNocheckComment

theorem sentinel_mem_insertModifications_lines (m : Str) (kind : Bool) :
    modifiedComment ∈ splitOnNl (insertModifications m kind) := by
  cases kind
  · rw [insertModifications_lines_false]
    exact mem_spliceAt_self _ _ _
  · rw [insertModifications_lines_true]
    rw [List.mem_filter]
    exact ⟨mem_spliceAt_of_mem (mem_spliceAt_self _ _ _), keepPred_modifiedComment⟩

theorem jsIncludes_insertModifications_sentinel (m : Str) (kind : Bool) :
    jsIncludes (insertModifications m kind) modifiedComment = true := by
  have h := sentinel_mem_insertModifications_lines m kind
  rw [jsIncludes, decide_eq_true_eq]
  have h2 := infix_joinNl_of_mem h
  have h3 : joinNl (splitOnNl (insertModifications m kind)) <:+: insertModifications m kind := by
    cases hk : kind
    · rw [insertModifications_lines_false]
      rw [insertModifications]
      simp only [Bool.false_eq_true, if_false]
      exact List.infix_refl _
    · rw [insertModifications_lines_true]
      rw [insertModifications]
      simp only [if_true]
      exact List.infix_refl _
  exact h2.trans h3


theorem insertModifications_head (m : Str) (kind : Bool) (l₀ : Str) (rest : List Str)
    (hsplit : splitOnNl m = l₀ :: rest) (hshe : jsStartsWith l₀ (str "#!") = true) :
    (splitOnNl (insertModifications m kind)).head? = some l₀ := by
  have hs : scriptStartOf (splitOnNl m) = 1 := by
    rw [hsplit, scriptStartOf]
    simp [hshe]
  cases kind
  · rw [insertModifications_lines_false, hs, hsplit, spliceAt_cons_one]
    rfl
  · rw [insertModifications_lines_true, hs, hsplit, spliceAt_cons_one, spliceAt_cons_one]
    rw [List.filter_cons]
    simp [shebang_not_tripleSlash hshe]

/-- C4: the vendored-file rewriter is idempotent.  A file whose content already
contains the sentinel comment is skipped without parsing (the result does not
depend on the parse/transform function and nothing is written), so a second
rewriting pass leaves every already-rewritten file byte-identical; every
written file contains the sentinel, and the sentinel is inserted at
scriptStart, the position directly after a shebang line, with the shebang
preserved as the first line of the written content. -/
theorem claim_c4_rewriter_idempotent :
    (∀ tp content, jsIncludes content modifiedComment = true →
        processVendoredFile tp content = none)
    ∧ (∀ tp tp' content out, processVendoredFile tp content = some out →
        jsIncludes out modifiedComment = true ∧ processVendoredFile tp' out = none)
    ∧ (∀ m kind l₀ rest, splitOnNl m = l₀ :: rest →
        jsStartsWith l₀ (str "#!") = true →
        (splitOnNl (insertModifications m kind)).head? = some l₀)
    ∧ (∀ m, splitOnNl (insertModifications m false)
        = spliceAt (splitOnNl m) (scriptStartOf (splitOnNl m)) modifiedComment)
    ∧ (∀ m, splitOnNl (insertModifications m true)
        = (spliceAt (spliceAt (splitOnNl m) (scriptStartOf (splitOnNl m)) modifiedComment)
            (scriptStartOf (splitOnNl m)) tsNocheckComment).filter
            (fun l => ¬ jsStartsWith l tripleSlashStart)) := by
  refine ⟨?_, ?_, insertModifications_head,
    insertModifications_lines_false, insertModifications_lines_true⟩
  · intro tp content h
    rw [processVendoredFile, if_pos h]
  · intro tp tp' content out h
    rw [processVendoredFile] at h
    by_cases hin : jsIncludes content modifiedComment = true
    · rw [if_pos hin] at h
      exact absurd h (by simp)
    · rw [if_neg hin] at h
      cases htp : tp content with
      | none =>
        rw [htp] at h
        exact absurd h (by simp)
      | some mk =>
        rw [htp] at h
        have hout : out = insertModifications mk.1 mk.2 := by
          injection h with h
          exact h.symm
        subst hout
        refine ⟨jsIncludes_insertModifications_sentinel mk.1 mk.2, ?_⟩
        rw [processVendoredFile, if_pos (jsIncludes_insertModifications_sentinel mk.1 mk.2)]

/-- Witness for C4 at concrete inputs: a content that carries the sentinel is
skipped, and a shebang file keeps its shebang as line one after rewriting. -/
theorem claim_c4_witness :
    jsIncludes (str "a\n// tsc_helper_modified\nb") modifiedComment = true
    ∧ processVendoredFile (fun c => some (c, true))
        (str "a\n// tsc_helper_modified\nb") = none
    ∧ (splitOnNl (insertModifications (str "#!env deno\nexport {};") true)).head?
        = some (str "#!env deno") := by
  refine ⟨by decide, claim_c4_rewriter_idempotent.1 _ _ (by decide), ?_⟩
  exact claim_c4_rewriter_idempotent.2.2.1 _ true (str "#!env deno") [str "export {};"]
    (by decide) (by decide)

/-!
Lemmas about association-list lookup and the merged remote imports.
-/

theorem lookupKey_append {α : Type} (a b : List (Str × α)) (k : Str) :
    lookupKey (a ++ b) k
      = match lookupKey a k with
        | some v => some v
        | none => lookupKey b k := by
  induction a with
  | nil => simp [lookupKey]
  | cons p rest ih =>
    rcases p with ⟨k', v⟩
    by_cases h : k' = k
    · simp [lookupKey, h]
    · simp [lookupKey, h, ih]

theorem lookupKey_none_of_not_any {α : Type} {acc : List (Str × α)} {k : Str}
    (h : acc.any (fun p => p.1 = k) = false) : lookupKey acc k = none := by
  induction acc with
  | nil => rfl
  | cons p rest ih =>
    rcases p with ⟨k', v⟩
    simp only [List.any_cons, Bool.or_eq_false_iff, decide_eq_false_iff_not] at h
    rw [lookupKey, if_neg h.1, ih h.2]

theorem lookupKey_some_of_any {α : Type} {acc : List (Str × α)} {k : Str}
    (h : acc.any (fun p => p.1 = k) = true) : ∃ v, lookupKey acc k = some v := by
  induction acc with
  | nil => simp at h
  | cons p rest ih =>
    rcases p with ⟨k', v⟩
    by_cases hk : k' = k
    · exact ⟨v, by rw [lookupKey, if_pos hk]⟩
    · simp only [List.any_cons, Bool.or_eq_true_iff, decide_eq_true_eq] at h
      rcases h with h | h
      · exact absurd h hk
      · rcases ih h with ⟨w, hw⟩
        exact ⟨w, by rw [lookupKey, if_neg hk, hw]⟩

theorem mem_map_fst_of_lookupKey {α : Type} {acc : List (Str × α)} {k : Str} {v : α}
    (h : lookupKey acc k = some v) : k ∈ acc.map Prod.fst := by
  induction acc with
  | nil => simp [lookupKey] at h
  | cons p rest ih =>
    rcases p with ⟨k', w⟩
    by_cases hk : k' = k
    · rw [List.map_cons]
      subst hk
      exact List.mem_cons_self _ _
    · rw [lookupKey, if_neg hk] at h
      exact List.mem_cons_of_mem _ (ih h)

theorem lookupKey_map_update (key : Str) (r : RemoteImportData) :
    ∀ (acc : List (Str × List RemoteImportData)) (k : Str),
    lookupKey (acc.map (fun p => if p.1 = key then (p.1, p.2 ++ [r]) else p)) k
      = if k = key then (lookupKey acc k).map (fun g => g ++ [r])
        else lookupKey acc k := by
  intro acc
  induction acc with
  | nil =>
    intro k
    by_cases h : k = key <;> simp [lookupKey, h]
  | cons p rest ih =>
    intro k
    rcases p with ⟨k', g'⟩
    by_cases hk'key : k' = key
    · rw [List.map_cons]
      have hpair : (if (k', g').1 = key then ((k', g').1, (k', g').2 ++ [r])
          else ((k', g') : Str × List RemoteImportData)) = (k', g' ++ [r]) := by
        simp [hk'key]
      rw [hpair, lookupKey, lookupKey]
      by_cases hk'k : k' = k
      · have hkkey : k = key := hk'k ▸ hk'key
        rw [if_pos hk'k, if_pos hk'k, if_pos hkkey]
        rfl
      · rw [if_neg hk'k, if_neg hk'k, ih k]
    · rw [List.map_cons]
      have hpair : (if (k', g').1 = key then ((k', g').1, (k', g').2 ++ [r])
          else ((k', g') : Str × List RemoteImportData)) = (k', g') := by
        simp [hk'key]
      rw [hpair, lookupKey, lookupKey]
      by_cases hk'k : k' = k
      · have hkkey : ¬ k = key := fun h => hk'key (hk'k.trans h)
        rw [if_pos hk'k, if_pos hk'k, if_neg hkkey]
      · rw [if_neg hk'k, if_neg hk'k, ih k]

theorem lookupKey_mergeInsert (acc : List (Str × List RemoteImportData))
    (r : RemoteImportData) (k : Str) :
    lookupKey (mergeInsert acc r) k
      = if k = r.resolvedHref then some (((lookupKey acc k).getD []) ++ [r])
        else lookupKey acc k := by
  rw [mergeInsert]
  by_cases hany : acc.any (fun p => p.1 = r.resolvedHref) = true
  · rw [if_pos hany, lookupKey_map_update]
    by_cases hk : k = r.resolvedHref
    · rcases lookupKey_some_of_any (hk ▸ hany) with ⟨v, hv⟩
      rw [if_pos hk, if_pos hk, hv]
      rfl
    · rw [if_neg hk, if_neg hk]
  · rw [if_neg hany, lookupKey_append]
    have hnone := lookupKey_none_of_not_any (Bool.eq_false_iff.mpr hany)
    by_cases hk : k = r.resolvedHref
    · rw [if_pos hk, hk, hnone]
      simp [lookupKey]
    · rw [if_neg hk]
      cases hl : lookupKey acc k with
      | some v => rfl
      | none =>
        show lookupKey [(r.resolvedHref, [r])] k = none
        rw [lookupKey, if_neg (fun h : r.resolvedHref = k => hk h.symm)]
        rfl

theorem mergeInsert_map_fst (acc : List (Str × List RemoteImportData))
    (r : RemoteImportData) :
    (mergeInsert acc r).map Prod.fst
      = if acc.any (fun p => p.1 = r.resolvedHref) then acc.map Prod.fst
        else acc.map Prod.fst ++ [r.resolvedHref] := by
  rw [mergeInsert]
  by_cases hany : acc.any (fun p => p.1 = r.resolvedHref) = true
  · rw [if_pos hany, if_pos hany, List.map_map]
    apply List.map_congr_left
    intro p _
    by_cases hp : p.1 = r.resolvedHref <;> simp [hp]
  · rw [if_neg hany, if_neg hany]
    simp

theorem merged_keys_nodup_aux :
    ∀ (L : List RemoteImportData) (acc : List (Str × List RemoteImportData)),
    (acc.map Prod.fst).Nodup → ((L.foldl mergeInsert acc).map Prod.fst).Nodup := by
  intro L
  induction L with
  | nil => exact fun acc h => h
  | cons r rest ih =>
    intro acc hacc
    rw [List.foldl_cons]
    apply ih
    rw [mergeInsert_map_fst]
    by_cases hany : acc.any (fun p => p.1 = r.resolvedHref) = true
    · rw [if_pos hany]
      exact hacc
    · rw [if_neg hany]
      have hnotmem : r.resolvedHref ∉ acc.map Prod.fst := by
        intro hmem
        rcases List.mem_map.mp hmem with ⟨p, hp, hfst⟩
        have : acc.any (fun q => q.1 = r.resolvedHref) = true :=
          List.any_eq_true.mpr ⟨p, hp, by simp [hfst]⟩
        exact hany this
      rw [List.nodup_append]
      exact ⟨hacc, List.nodup_singleton _,
        fun a ha hb => hnotmem ((List.mem_singleton.mp hb) ▸ ha)⟩

theorem merged_keys_nodup (imports : List RemoteImportData) :
    ((mergedRemoteImportsOf imports).map Prod.fst).Nodup :=
  merged_keys_nodup_aux imports [] (by simp)

theorem merged_lookup_aux :
    ∀ (L : List RemoteImportData) (acc : List (Str × List RemoteImportData))
      (r : RemoteImportData),
    (r ∈ L ∨ ∃ g, lookupKey acc r.resolvedHref = some g ∧ r ∈ g) →
    ∃ g, lookupKey (L.foldl mergeInsert acc) r.resolvedHref = some g ∧ r ∈ g := by
  intro L
  induction L with
  | nil =>
    intro acc r h
    rcases h with h | h
    · simp at h
    · exact h
  | cons x rest ih =>
    intro acc r h
    rw [List.foldl_cons]
    apply ih
    rcases h with h | ⟨g, hg, hr⟩
    · rcases List.mem_cons.mp h with h1 | h1
      · subst h1
        right
        refine ⟨((lookupKey acc r.resolvedHref).getD []) ++ [r], ?_, ?_⟩
        · rw [lookupKey_mergeInsert, if_pos rfl]
        · exact List.mem_append.mpr (Or.inr (List.mem_singleton.mpr rfl))
      · exact Or.inl h1
    · right
      rw [lookupKey_mergeInsert]
      by_cases hk : r.resolvedHref = x.resolvedHref
      · refine ⟨((lookupKey acc r.resolvedHref).getD []) ++ [x], ?_, ?_⟩
        · rw [if_pos hk]
        · rw [hg]
          exact List.mem_append.mpr (Or.inl hr)
      · exact ⟨g, by rw [if_neg hk]; exact hg, hr⟩

theorem merged_lookup (imports : List RemoteImportData) :
    ∀ r ∈ imports, ∃ g,
      lookupKey (mergedRemoteImportsOf imports) r.resolvedHref = some g ∧ r ∈ g :=
  fun r hr => merged_lookup_aux imports [] r (Or.inl hr)

theorem vendorLoop_ok_spec :
    ∀ (entries : List (Str × List RemoteImportData)) (cached : List Str)
      (fails : Str → Bool) (acts : List VendorAction),
    vendorLoop entries cached fails = .ok acts →
    acts.map vendorActionSpec
      = (entries.map Prod.fst).filter (fun k => !(cached.contains k)) := by
  intro entries
  induction entries with
  | nil =>
    intro cached fails acts h
    rw [vendorLoop] at h
    injection h with h
    rw [← h]
    rfl
  | cons e rest ih =>
    intro cached fails acts h
    rcases e with ⟨spec, datas⟩
    rw [vendorLoop] at h
    by_cases hc : cached.contains spec = true
    · rw [if_pos hc] at h
      rw [ih cached fails acts h, List.map_cons, List.filter_cons, hc]
      rfl
    · rw [if_neg hc] at h
      have hcf : cached.contains spec = false := Bool.eq_false_iff.mpr hc
      by_cases hnpm : jsStartsWith spec (str "npm:") = true
      · rw [if_pos hnpm] at h
        cases hrec : vendorLoop rest cached fails with
        | error e' =>
          rw [hrec] at h
          exact absurd h (by simp)
        | ok acts' =>
          rw [hrec] at h
          injection h with h
          rw [← h, List.map_cons, vendorActionSpec, List.map_cons, List.filter_cons, hcf,
            ih cached fails acts' hrec]
          rfl
      · rw [if_neg hnpm] at h
        by_cases hf : fails spec = true
        · rw [if_pos hf] at h
          exact absurd h (by simp)
        · rw [if_neg hf] at h
          cases hrec : vendorLoop rest cached fails with
          | error e' =>
            rw [hrec] at h
            exact absurd h (by simp)
          | ok acts' =>
            rw [hrec] at h
            injection h with h
            rw [← h, List.map_cons, vendorActionSpec, List.map_cons, List.filter_cons, hcf,
              ih cached fails acts' hrec]
            rfl

theorem lookupKey_setKey_self {α : Type} (o : List (Str × α)) (k : Str) (v : α) :
    lookupKey (setKey o k v) k = some v := by
  induction o with
  | nil => simp [setKey, lookupKey]
  | cons p rest ih =>
    rcases p with ⟨k', v'⟩
    by_cases h : k' = k
    · rw [setKey, if_pos h, lookupKey, if_pos rfl]
    · rw [setKey, if_neg h, lookupKey, if_neg h, ih]

theorem lookupKey_setKey_other {α : Type} (o : List (Str × α)) {k k' : Str} (v : α)
    (h : k' ≠ k) : lookupKey (setKey o k' v) k = lookupKey o k := by
  induction o with
  | nil => simp [setKey, lookupKey, h]
  | cons p rest ih =>
    rcases p with ⟨k'', v''⟩
    by_cases h2 : k'' = k'
    · rw [setKey, if_pos h2, lookupKey, if_neg h, lookupKey, if_neg (h2 ▸ h)]
    · rw [setKey, if_neg h2, lookupKey, lookupKey]
      by_cases h3 : k'' = k
      · rw [if_pos h3, if_pos h3]
      · rw [if_neg h3, if_neg h3, ih]

theorem lookupKey_foldl_setKey (dummyUrl : Str) :
    ∀ (L : List Str) (acc : List (Str × Str)) (url : Str),
    (url ∈ L ∨ lookupKey acc url = some dummyUrl) →
    lookupKey (L.foldl (fun a u => setKey a u dummyUrl) acc) url = some dummyUrl := by
  intro L
  induction L with
  | nil =>
    intro acc url h
    rcases h with h | h
    · simp at h
    · exact h
  | cons u rest ih =>
    intro acc url h
    rw [List.foldl_cons]
    apply ih
    rcases h with h | h
    · rcases List.mem_cons.mp h with h1 | h1
      · subst h1
        exact Or.inr (lookupKey_setKey_self acc url dummyUrl)
      · exact Or.inl h1
    · by_cases hu : u = url
      · subst hu
        exact Or.inr (lookupKey_setKey_self acc u dummyUrl)
      · exact Or.inr ((lookupKey_setKey_other acc dummyUrl hu).trans h)

theorem vendorLoop_error_spec :
    ∀ (entries : List (Str × List RemoteImportData)) (cached : List Str)
      (fails : Str → Bool) (e : VendorError),
    vendorLoop entries cached fails = .error e →
    fails e.specifier = true
    ∧ cached.contains e.specifier = false
    ∧ jsStartsWith e.specifier (str "npm:") = false
    ∧ ∃ g, (e.specifier, g) ∈ entries
        ∧ e.importerFilePaths = jsSetOf (g.map (·.importerFilePath)) := by
  intro entries
  induction entries with
  | nil =>
    intro cached fails e h
    rw [vendorLoop] at h
    exact absurd h (by simp)
  | cons p rest ih =>
    intro cached fails e h
    rcases p with ⟨spec, datas⟩
    rw [vendorLoop] at h
    by_cases hc : cached.contains spec = true
    · rw [if_pos hc] at h
      rcases ih cached fails e h with ⟨h1, h2, h3, g, hg, hpaths⟩
      exact ⟨h1, h2, h3, g, List.mem_cons_of_mem _ hg, hpaths⟩
    · rw [if_neg hc] at h
      by_cases hnpm : jsStartsWith spec (str "npm:") = true
      · rw [if_pos hnpm] at h
        cases hrec : vendorLoop rest cached fails with
        | error e' =>
          rw [hrec] at h
          injection h with h
          subst h
          rcases ih cached fails e' hrec with ⟨h1, h2, h3, g, hg, hpaths⟩
          exact ⟨h1, h2, h3, g, List.mem_cons_of_mem _ hg, hpaths⟩
        | ok acts' =>
          rw [hrec] at h
          exact absurd h (by simp)
      · rw [if_neg hnpm] at h
        by_cases hf : fails spec = true
        · rw [if_pos hf] at h
          injection h with h
          subst h
          exact ⟨hf, Bool.eq_false_iff.mpr hc, Bool.eq_false_iff.mpr hnpm,
            datas, List.mem_cons_self _ _, rfl⟩
        · rw [if_neg hf] at h
          cases hrec : vendorLoop rest cached fails with
          | error e' =>
            rw [hrec] at h
            injection h with h
            subst h
            rcases ih cached fails e' hrec with ⟨h1, h2, h3, g, hg, hpaths⟩
            exact ⟨h1, h2, h3, g, List.mem_cons_of_mem _ hg, hpaths⟩
          | ok acts' =>
            rw [hrec] at h
            exact absurd h (by simp)

theorem countOcc_nil (s : Str) : countOcc s [] = 0 := rfl

theorem countOcc_cons (s a : Str) (l : List Str) :
    countOcc s (a :: l) = (if a = s then 1 else 0) + countOcc s l := by
  rw [countOcc, countOcc, List.filter_cons]
  by_cases h : a = s <;> simp [h, Nat.add_comm]

theorem countOcc_eq_zero_of_not_mem {s : Str} {l : List Str} (h : s ∉ l) :
    countOcc s l = 0 := by
  induction l with
  | nil => rfl
  | cons a rest ih =>
    rw [countOcc_cons]
    simp only [List.mem_cons, not_or] at h
    rw [if_neg (fun ha => h.1 ha.symm), ih h.2]

theorem countOcc_le_one_of_nodup {s : Str} {l : List Str} (h : l.Nodup) :
    countOcc s l ≤ 1 := by
  induction l with
  | nil => simp [countOcc_nil]
  | cons a rest ih =>
    rw [countOcc_cons]
    rcases List.nodup_cons.mp h with ⟨hna, hrest⟩
    by_cases ha : a = s
    · rw [if_pos ha, countOcc_eq_zero_of_not_mem (fun hm => hna (by rw [ha]; exact hm))]
    · rw [if_neg ha, Nat.zero_add]
      exact ih hrest

theorem countOcc_eq_one_of_mem_nodup {s : Str} {l : List Str} (hn : l.Nodup)
    (hm : s ∈ l) : countOcc s l = 1 := by
  induction l with
  | nil => simp at hm
  | cons a rest ih =>
    rw [countOcc_cons]
    rcases List.nodup_cons.mp hn with ⟨hna, hrest⟩
    rcases List.mem_cons.mp hm with h1 | h1
    · rw [if_pos h1.symm, countOcc_eq_zero_of_not_mem (fun hm => hna (by rw [← h1]; exact hm))]
    · rw [if_neg (fun ha : a = s => hna (by rw [ha]; exact h1)), Nat.zero_add]
      exact ih hrest h1

theorem countOcc_filter {s : Str} {p : Str → Bool} {l : List Str}
    (hp : p s = true) : countOcc s (l.filter p) = countOcc s l := by
  induction l with
  | nil => rfl
  | cons a rest ih =>
    rw [List.filter_cons]
    by_cases ha : a = s
    · rw [if_pos (show p a = true by rw [ha]; exact hp), countOcc_cons, countOcc_cons, ih]
    · rw [countOcc_cons, if_neg ha, Nat.zero_add]
      by_cases hpa : p a = true
      · rw [if_pos hpa, countOcc_cons, if_neg ha, Nat.zero_add, ih]
      · rw [if_neg hpa, ih]

theorem countOcc_le_of_sublist {s : Str} {l₁ l₂ : List Str} (h : l₁.Sublist l₂) :
    countOcc s l₁ ≤ countOcc s l₂ := by
  rw [countOcc, countOcc]
  exact (h.filter _).length_le

/-- C1: every remote import record is grouped under the single merged entry of
its resolved specifier href, the merged keys are pairwise distinct, and on a
successful run the vendor loop performs at most one vendoring/fetch operation
per resolved URL; when a resolved URL shared by two records is not in the
previous run's cache the loop performs exactly one operation for it. -/
theorem claim_c1_vendor_dedup (imports : List RemoteImportData) :
    ((mergedRemoteImportsOf imports).map Prod.fst).Nodup
    ∧ (∀ r ∈ imports, ∃ g,
        lookupKey (mergedRemoteImportsOf imports) r.resolvedHref = some g ∧ r ∈ g)
    ∧ (∀ cached fails acts,
        vendorLoop (mergedRemoteImportsOf imports) cached fails = .ok acts →
        (∀ s, countOcc s (acts.map vendorActionSpec) ≤ 1)
        ∧ (∀ r₁ r₂, r₁ ∈ imports → r₂ ∈ imports →
            r₁.resolvedHref = r₂.resolvedHref →
            cached.contains r₁.resolvedHref = false →
            countOcc r₁.resolvedHref (acts.map vendorActionSpec) = 1)) := by
  refine ⟨merged_keys_nodup imports, merged_lookup imports, ?_⟩
  intro cached fails acts h
  rw [vendorLoop_ok_spec _ _ _ _ h]
  constructor
  · intro s
    exact le_trans (countOcc_le_of_sublist (List.filter_sublist _))
      (countOcc_le_one_of_nodup (merged_keys_nodup imports))
  · intro r₁ r₂ h₁ h₂ heq hcached
    rcases merged_lookup imports r₁ h₁ with ⟨g, hg, _⟩
    have hmem := mem_map_fst_of_lookupKey hg
    have hnotmem : r₁.resolvedHref ∉ cached := by simpa using hcached
    have hpred : (fun k => !(cached.contains k)) r₁.resolvedHref = true := by
      simp [hnotmem]
    rw [countOcc_filter hpred]
    exact countOcc_eq_one_of_mem_nodup (merged_keys_nodup imports) hmem

/-- Witness for C1: two source files importing the same resolved URL lead to
exactly one vendoring operation for that URL. -/
theorem claim_c1_witness :
    countOcc (str "https://example.test/mod.ts")
      (List.map vendorActionSpec
        [VendorAction.vendorOp (str "https://example.test/mod.ts")]) = 1 := by
  have h := (claim_c1_vendor_dedup
      [⟨str "/proj/a.js", str "https://example.test/mod.ts",
          str "https://example.test/mod.ts"⟩,
       ⟨str "/proj/b.js", str "https://example.test/mod.ts",
          str "https://example.test/mod.ts"⟩]).2.2
    [] (fun _ => false)
    [VendorAction.vendorOp (str "https://example.test/mod.ts")] (by rfl)
  exact h.2 _ _ (List.mem_cons_self _ _)
    (List.mem_cons_of_mem _ (List.mem_cons_self _ _)) rfl (by rfl)

/-- C6 counterexample: when 'deno vendor' fails on the first of two collected
resolved specifiers, generateTypes throws (the vendor loop yields an error
instead of a list of performed operations), so the run is aborted and the
remaining specifier is never processed — contradicting the claim that a fetch
failure during vendoring does not abort the run and that processing continues
with the remaining specifiers. -/
theorem claim_c6_counterexample :
    vendorLoop
        (mergedRemoteImportsOf
          [⟨str "/proj/a.js", str "https://x.test/a.ts", str "https://x.test/a.ts"⟩,
           ⟨str "/proj/b.js", str "https://y.test/b.ts", str "https://y.test/b.ts"⟩])
        []
        (fun s => s = str "https://x.test/a.ts")
      = .error ⟨str "https://x.test/a.ts", [str "/proj/a.js"]⟩ := by
  rfl

/-- C6 (amended): a failure of the vendor operation for a top-level resolved
specifier aborts the run with a fatal error that names the failing specifier
and the deduplicated importing file paths (and whose message suggests adding
the specifier to excludeUrls); the only sub-resource failure tolerance is the
excludeUrls mechanism: every excluded url is redirected to the dummy module in
the temporary import map used while vendoring. -/
theorem claim_c6_amended :
    (∀ entries cached fails e,
        vendorLoop entries cached fails = .error e →
        fails e.specifier = true
        ∧ cached.contains e.specifier = false
        ∧ jsStartsWith e.specifier (str "npm:") = false
        ∧ ∃ g, (e.specifier, g) ∈ entries
            ∧ e.importerFilePaths = jsSetOf (g.map (·.importerFilePath)))
    ∧ (∀ userImports excludeUrls dummyUrl url, url ∈ excludeUrls →
        lookupKey (buildTemporaryImportMap userImports excludeUrls dummyUrl) url
          = some dummyUrl) := by
  refine ⟨vendorLoop_error_spec, ?_⟩
  intro userImports excludeUrls dummyUrl url hmem
  rw [buildTemporaryImportMap]
  by_cases h : str "npm:typescript@4.7.4" = url
  · rw [h, lookupKey_setKey_self]
  · rw [lookupKey_setKey_other _ _ h]
    exact lookupKey_foldl_setKey dummyUrl excludeUrls userImports url (Or.inl hmem)

/-- Witness for C6 (amended) at a concrete failing vendor run. -/
theorem claim_c6_amended_witness :
    ((fun s => s = str "https://x.test/a.ts") : Str → Bool) (str "https://x.test/a.ts") = true
    ∧ lookupKey
        (buildTemporaryImportMap [] [str "https://bad.test/asset.css"]
          (str "file:///proj/.denoTypes/dummyModule.js"))
        (str "https://bad.test/asset.css")
      = some (str "file:///proj/.denoTypes/dummyModule.js") := by
  constructor
  · have h := claim_c6_amended.1
      (mergedRemoteImportsOf
        [⟨str "/proj/a.js", str "https://x.test/a.ts", str "https://x.test/a.ts"⟩])
      [] (fun s => s = str "https://x.test/a.ts")
      ⟨str "https://x.test/a.ts", [str "/proj/a.js"]⟩ (by rfl)
    exact h.1
  · exact claim_c6_amended.2 [] _ _ _ (List.mem_cons_self _ _)

/-!
Include/exclude expansion: theorems.
-/

theorem mem_getIncludeExcludeFiles_aux (exclude : List Str) (extensions : List Str) :
    ∀ (ts : List IncludeTarget) (acc : List (List Str)) (q : List Str),
    (q ∈ ts.foldl
        (fun files t =>
          match t with
          | .dir p entries =>
            files ++ (readDirList p (some (excludeFilter exclude)) entries).filter
              (hasValidExtension extensions)
          | .file p => files ++ [p])
        acc)
      ↔ q ∈ acc
        ∨ (IncludeTarget.file q ∈ ts)
        ∨ (∃ p entries, IncludeTarget.dir p entries ∈ ts
            ∧ q ∈ (readDirList p (some (excludeFilter exclude)) entries).filter
                (hasValidExtension extensions)) := by
  intro ts
  induction ts with
  | nil =>
    intro acc q
    simp
  | cons t rest ih =>
    intro acc q
    rw [List.foldl_cons]
    cases t with
    | file p =>
      rw [ih]
      constructor
      · intro h
        rcases h with h | h | h
        · rcases List.mem_append.mp h with h1 | h1
          · exact Or.inl h1
          · rw [List.mem_singleton.mp h1]
            exact Or.inr (Or.inl (List.mem_cons_self _ _))
        · exact Or.inr (Or.inl (List.mem_cons_of_mem _ h))
        · rcases h with ⟨p', entries, hmem, hq⟩
          exact Or.inr (Or.inr ⟨p', entries, List.mem_cons_of_mem _ hmem, hq⟩)
      · intro h
        rcases h with h | h | h
        · exact Or.inl (List.mem_append.mpr (Or.inl h))
        · rcases List.mem_cons.mp h with h1 | h1
          · injection h1 with h1
            exact Or.inl (List.mem_append.mpr (Or.inr (List.mem_singleton.mpr h1)))
          · exact Or.inr (Or.inl h1)
        · rcases h with ⟨p', entries, hmem, hq⟩
          rcases List.mem_cons.mp hmem with h1 | h1
          · exact absurd h1 (by simp)
          · exact Or.inr (Or.inr ⟨p', entries, h1, hq⟩)
    | dir p entries =>
      rw [ih]
      constructor
      · intro h
        rcases h with h | h | h
        · rcases List.mem_append.mp h with h1 | h1
          · exact Or.inl h1
          · exact Or.inr (Or.inr ⟨p, entries, List.mem_cons_self _ _, h1⟩)
        · exact Or.inr (Or.inl (List.mem_cons_of_mem _ h))
        · rcases h with ⟨p', entries', hmem, hq⟩
          exact Or.inr (Or.inr ⟨p', entries', List.mem_cons_of_mem _ hmem, hq⟩)
      · intro h
        rcases h with h | h | h
        · exact Or.inl (List.mem_append.mpr (Or.inl h))
        · rcases List.mem_cons.mp h with h1 | h1
          · exact absurd h1 (by simp)
          · exact Or.inr (Or.inl h1)
        · rcases h with ⟨p', entries', hmem, hq⟩
          rcases List.mem_cons.mp hmem with h1 | h1
          · injection h1 with h1 h2
            subst h1
            subst h2
            exact Or.inl (List.mem_append.mpr (Or.inr hq))
          · exact Or.inr (Or.inr ⟨p', entries', h1, hq⟩)

theorem mem_getIncludeExcludeFiles (ts : List IncludeTarget) (exclude : List Str)
    (extensions : List Str) (q : List Str) :
    q ∈ getIncludeExcludeFiles ts exclude extensions
      ↔ (IncludeTarget.file q ∈ ts)
        ∨ (∃ p entries, IncludeTarget.dir p entries ∈ ts
            ∧ q ∈ (readDirList p (some (excludeFilter exclude)) entries).filter
                (hasValidExtension extensions)) := by
  rw [getIncludeExcludeFiles, mem_getIncludeExcludeFiles_aux]
  simp

/-- C5 (evaluation at the failing input): with exclude = ["node_modules"], a
node_modules directory nested one level below an included directory is still
descended into — the file below it is collected — because readDirRecursive
does not pass the filter to its recursive call (src/src/common.js line 28);
only a node_modules entry at the top level of the included directory is
pruned.  This contradicts the claim that an excluded directory at any depth
of the walk is pruned. -/
theorem claim_c5_nested_exclude_not_pruned :
    getIncludeExcludeFiles
        [IncludeTarget.dir [str "proj"]
          [FsEntry.dir (str "a")
            [FsEntry.dir (str "node_modules") [FsEntry.file (str "x.js")]]],
         IncludeTarget.dir [str "proj2"]
          [FsEntry.dir (str "node_modules") [FsEntry.file (str "y.js")]]]
        [str "node_modules"] [str "js", str "ts", str "d.ts"]
      = [[str "proj", str "a", str "node_modules", str "x.js"]] := by
  rfl

/-- C10: an include path that names a file is pushed to the result as it is:
neither the exclude list nor the extension filter applies to it; every other
collected file comes from walking an included directory and has a recognized
extension. -/
theorem claim_c10_file_include_unconditional (ts : List IncludeTarget)
    (exclude : List Str) (extensions : List Str) (p : List Str)
    (h : IncludeTarget.file p ∈ ts) :
    p ∈ getIncludeExcludeFiles ts exclude extensions
    ∧ ∀ q ∈ getIncludeExcludeFiles ts exclude extensions,
        (IncludeTarget.file q ∈ ts) ∨ hasValidExtension extensions q = true := by
  constructor
  · exact (mem_getIncludeExcludeFiles ts exclude extensions p).mpr (Or.inl h)
  · intro q hq
    rcases (mem_getIncludeExcludeFiles ts exclude extensions q).mp hq with h1 | h1
    · exact Or.inl h1
    · rcases h1 with ⟨p', entries, _, hq'⟩
      exact Or.inr (List.mem_filter.mp hq').2

/-- Witness for C10: a file include whose name is in the exclude list and
whose extension is not recognized is still returned. -/
theorem claim_c10_witness :
    [str "proj", str "secret.txt"] ∈
      getIncludeExcludeFiles [IncludeTarget.file [str "proj", str "secret.txt"]]
        [str "secret.txt"] [str "js", str "ts", str "d.ts"] :=
  (claim_c10_file_include_unconditional
    [IncludeTarget.file [str "proj", str "secret.txt"]]
    [str "secret.txt"] [str "js", str "ts", str "d.ts"]
    [str "proj", str "secret.txt"] (List.mem_cons_self _ _)).1

/-!
The tsconfig paths object: theorems.
-/

theorem lookupKey_foldl_setKey_ne {α γ : Type} (f : γ → α) :
    ∀ (L : List (Str × γ)) (o : List (Str × α)) (k : Str),
    (∀ e ∈ L, e.1 ≠ k) →
    lookupKey (L.foldl (fun o' kv => setKey o' kv.1 (f kv.2)) o) k = lookupKey o k := by
  intro L
  induction L with
  | nil => exact fun o k _ => rfl
  | cons e rest ih =>
    intro o k h
    rw [List.foldl_cons, ih _ _ (fun e' he' => h e' (List.mem_cons_of_mem _ he')),
      lookupKey_setKey_other _ _ (h e (List.mem_cons_self _ _))]

/-- C9: every compilerOptions.paths entry of a pre-existing tsconfig.json
whose key is not among the newly computed path entries and not among the
extraPaths entries appears unchanged in the newly written paths object:
existing entries are merged with, not replaced by, the new ones. -/
theorem claim_c9_existing_paths_preserved (existing : List (Str × List Str))
    (tsConfigPaths : List (Str × Str)) (extraPaths : List (Str × List Str))
    (k : Str) (v : List Str)
    (hk : lookupKey existing k = some v)
    (h1 : ∀ e ∈ tsConfigPaths, e.1 ≠ k)
    (h2 : ∀ e ∈ extraPaths, e.1 ≠ k) :
    lookupKey (tsConfigPathsObjectFinal existing tsConfigPaths extraPaths) k = some v := by
  rw [tsConfigPathsObjectFinal]
  rw [lookupKey_foldl_setKey_ne (fun v : List Str => v) extraPaths _ k h2]
  rw [lookupKey_foldl_setKey_ne (fun v : Str => [v]) tsConfigPaths _ k h1]
  exact hk

/-- Witness for C9 at a concrete pre-existing tsconfig. -/
theorem claim_c9_witness :
    lookupKey
      (tsConfigPathsObjectFinal
        [(str "https://old.test/kept.ts", [str "/proj/.denoTypes/old.ts"])]
        [(str "https://new.test/mod.ts", str "/proj/.denoTypes/vendor/new.ts")]
        [(str "extra", [str "/proj/extra.d.ts"])])
      (str "https://old.test/kept.ts")
      = some [str "/proj/.denoTypes/old.ts"] := by
  apply claim_c9_existing_paths_preserved
  · rfl
  · intro e he
    rw [List.mem_singleton.mp he]
    decide
  · intro e he
    rw [List.mem_singleton.mp he]
    decide

/-!
Ambient modules for excluded specifiers: lemmas.
-/

theorem mem_jsSetAdd {acc : List Str} {x y : Str} :
    y ∈ jsSetAdd acc x ↔ y ∈ acc ∨ y = x := by
  rw [jsSetAdd]
  by_cases h : acc.contains x = true
  · rw [if_pos h]
    constructor
    · exact Or.inl
    · intro hy
      rcases hy with hy | hy
      · exact hy
      · exact hy ▸ List.elem_iff.mp h
  · rw [if_neg h]
    constructor
    · intro hy
      rcases List.mem_append.mp hy with h1 | h1
      · exact Or.inl h1
      · exact Or.inr (List.mem_singleton.mp h1)
    · intro hy
      rcases hy with hy | hy
      · exact List.mem_append.mpr (Or.inl hy)
      · exact List.mem_append.mpr (Or.inr (List.mem_singleton.mpr hy))

theorem jsSetAdd_nodup {acc : List Str} {x : Str} (h : acc.Nodup) :
    (jsSetAdd acc x).Nodup := by
  rw [jsSetAdd]
  by_cases hc : acc.contains x = true
  · rw [if_pos hc]
    exact h
  · rw [if_neg hc]
    have hx : x ∉ acc := fun hm => hc (List.elem_iff.mpr hm)
    rw [List.nodup_append]
    exact ⟨h, List.nodup_singleton x,
      fun a ha hb => hx ((List.mem_singleton.mp hb) ▸ ha)⟩

theorem needsAmbientOf_aux_nodup (excludeUrls : List Str) :
    ∀ (L : List ImportData) (acc : List Str), acc.Nodup →
    (L.foldl
      (fun acc i =>
        if excludeUrls.contains i.importSpecifier then jsSetAdd acc i.importSpecifier
        else acc)
      acc).Nodup := by
  intro L
  induction L with
  | nil => exact fun acc h => h
  | cons i rest ih =>
    intro acc h
    rw [List.foldl_cons]
    apply ih
    by_cases hc : excludeUrls.contains i.importSpecifier = true
    · rw [if_pos hc]
      exact jsSetAdd_nodup h
    · rw [if_neg hc]
      exact h

theorem needsAmbientOf_aux_mem (excludeUrls : List Str) :
    ∀ (L : List ImportData) (acc : List Str) (y : Str),
    (y ∈ L.foldl
      (fun acc i =>
        if excludeUrls.contains i.importSpecifier then jsSetAdd acc i.importSpecifier
        else acc)
      acc)
      ↔ y ∈ acc ∨ ∃ i ∈ L, i.importSpecifier = y ∧ excludeUrls.contains y = true := by
  intro L
  induction L with
  | nil =>
    intro acc y
    simp
  | cons i rest ih =>
    intro acc y
    rw [List.foldl_cons, ih]
    by_cases hc : excludeUrls.contains i.importSpecifier = true
    · rw [if_pos hc]
      constructor
      · intro h
        rcases h with h | h
        · rcases mem_jsSetAdd.mp h with h1 | h1
          · exact Or.inl h1
          · exact Or.inr ⟨i, List.mem_cons_self _ _, h1.symm, h1 ▸ hc⟩
        · rcases h with ⟨j, hj, hspec, hcy⟩
          exact Or.inr ⟨j, List.mem_cons_of_mem _ hj, hspec, hcy⟩
      · intro h
        rcases h with h | h
        · exact Or.inl (mem_jsSetAdd.mpr (Or.inl h))
        · rcases h with ⟨j, hj, hspec, hcy⟩
          rcases List.mem_cons.mp hj with h1 | h1
          · exact Or.inl (mem_jsSetAdd.mpr (Or.inr (h1 ▸ hspec).symm))
          · exact Or.inr ⟨j, h1, hspec, hcy⟩
    · rw [if_neg hc]
      constructor
      · intro h
        rcases h with h | h
        · exact Or.inl h
        · rcases h with ⟨j, hj, hspec, hcy⟩
          exact Or.inr ⟨j, List.mem_cons_of_mem _ hj, hspec, hcy⟩
      · intro h
        rcases h with h | h
        · exact Or.inl h
        · rcases h with ⟨j, hj, hspec, hcy⟩
          rcases List.mem_cons.mp hj with h1 | h1
          · exact absurd (h1 ▸ hspec ▸ hcy) hc
          · exact Or.inr ⟨j, h1, hspec, hcy⟩

theorem needsAmbientOf_nodup (allImports : List ImportData) (excludeUrls : List Str) :
    (needsAmbientOf allImports excludeUrls).Nodup :=
  needsAmbientOf_aux_nodup excludeUrls allImports [] List.nodup_nil

theorem mem_needsAmbientOf {allImports : List ImportData} {excludeUrls : List Str}
    {y : Str} :
    y ∈ needsAmbientOf allImports excludeUrls
      ↔ ∃ i ∈ allImports, i.importSpecifier = y ∧ excludeUrls.contains y = true := by
  rw [needsAmbientOf, needsAmbientOf_aux_mem]
  simp

theorem no_newline_ambientLine {s : Str} (h : '\n' ∉ s) : '\n' ∉ ambientLine s := by
  rw [ambientLine]
  intro hm
  rcases List.mem_append.mp hm with h1 | h1
  · rcases List.mem_append.mp h1 with h2 | h2
    · revert h2
      decide
    · exact h h2
  · revert h1
    decide

theorem ambientLine_ne_nil (s : Str) : ambientLine s ≠ [] := by
  rw [ambientLine]
  intro h
  have := congrArg List.length h
  simp [str] at this

theorem ambientLine_inj {s t : Str} (h : ambientLine s = ambientLine t) : s = t := by
  rw [ambientLine, ambientLine] at h
  rw [List.append_assoc, List.append_assoc] at h
  have h2 := List.append_cancel_left h
  exact List.append_cancel_right h2

theorem ambientContent_foldl_shift :
    ∀ (rest : List Str) (acc : Str),
    List.foldl (fun a s => a ++ ambientLine s ++ ['\n']) acc rest
      = acc ++ List.foldl (fun a s => a ++ ambientLine s ++ ['\n']) [] rest := by
  intro rest
  induction rest with
  | nil =>
    intro acc
    simp
  | cons s rest' ih =>
    intro acc
    rw [List.foldl_cons, List.foldl_cons, ih, ih (([] ++ ambientLine s) ++ ['\n'])]
    simp [List.append_assoc]

theorem ambientContent_cons (s : Str) (rest : List Str) :
    ambientContent (s :: rest) = ambientLine s ++ '\n' :: ambientContent rest := by
  rw [ambientContent, List.foldl_cons, ambientContent_foldl_shift, ambientContent]
  simp

theorem splitOnNl_ambientContent (specs : List Str)
    (h : ∀ s ∈ specs, '\n' ∉ s) :
    splitOnNl (ambientContent specs) = specs.map ambientLine ++ [[]] := by
  induction specs with
  | nil => rfl
  | cons s rest ih =>
    rw [ambientContent_cons,
      splitOnNl_append_newline _ (no_newline_ambientLine (h s (List.mem_cons_self _ _))),
      ih (fun t ht => h t (List.mem_cons_of_mem _ ht))]
    rfl

theorem countOcc_append (s : Str) (a b : List Str) :
    countOcc s (a ++ b) = countOcc s a + countOcc s b := by
  rw [countOcc, countOcc, countOcc, List.filter_append, List.length_append]

theorem countOcc_map_ambientLine (s : Str) (L : List Str) :
    countOcc (ambientLine s) (L.map ambientLine) = countOcc s L := by
  induction L with
  | nil => rfl
  | cons a rest ih =>
    rw [List.map_cons, countOcc_cons, countOcc_cons, ih]
    by_cases h : a = s
    · rw [if_pos h, if_pos (by rw [h])]
    · rw [if_neg h, if_neg (fun hl => h (ambientLine_inj hl))]

/-!
Provenance of path-table keys and vendor operations: lemmas.
-/

theorem collectRemote_props (allImports : List ImportData) (excludeUrls : List Str)
    (resolver : Str → Str → UrlRes) :
    ∀ r ∈ collectRemoteImports allImports excludeUrls resolver,
    excludeUrls.contains r.importSpecifier = false
    ∧ excludeUrls.contains r.resolvedHref = false := by
  intro r hr
  rcases List.mem_filterMap.mp hr with ⟨i, hi, hsome⟩
  simp only [collectRemoteImport1] at hsome
  split at hsome
  · exact absurd hsome (by simp)
  · split at hsome
    · exact absurd hsome (by simp)
    · split at hsome
      · exact absurd hsome (by simp)
      · rename_i h1 h2 h3
        injection hsome with hsome
        subst hsome
        exact ⟨Bool.eq_false_iff.mpr h1, Bool.eq_false_iff.mpr h2⟩

theorem merged_keys_covered_aux :
    ∀ (L : List RemoteImportData) (acc : List (Str × List RemoteImportData)) (k : Str),
    k ∈ ((L.foldl mergeInsert acc).map Prod.fst) →
    k ∈ acc.map Prod.fst ∨ ∃ r ∈ L, r.resolvedHref = k := by
  intro L
  induction L with
  | nil =>
    intro acc k h
    exact Or.inl h
  | cons x rest ih =>
    intro acc k h
    rw [List.foldl_cons] at h
    rcases ih _ k h with h1 | h1
    · rw [mergeInsert_map_fst] at h1
      by_cases hany : acc.any (fun p => p.1 = x.resolvedHref) = true
      · rw [if_pos hany] at h1
        exact Or.inl h1
      · rw [if_neg hany] at h1
        rcases List.mem_append.mp h1 with h2 | h2
        · exact Or.inl h2
        · exact Or.inr ⟨x, List.mem_cons_self _ _, (List.mem_singleton.mp h2).symm⟩
    · rcases h1 with ⟨r, hrl, hrk⟩
      exact Or.inr ⟨r, List.mem_cons_of_mem _ hrl, hrk⟩

theorem merged_keys_covered (imports : List RemoteImportData) (k : Str)
    (h : k ∈ (mergedRemoteImportsOf imports).map Prod.fst) :
    ∃ r ∈ imports, r.resolvedHref = k := by
  rcases merged_keys_covered_aux imports [] k h with h1 | h1
  · simp at h1
  · exact h1

theorem mem_mergeInsert {acc : List (Str × List RemoteImportData)}
    {x : RemoteImportData} {e : Str × List RemoteImportData}
    (h : e ∈ mergeInsert acc x) :
    (∃ p ∈ acc, e.2 = p.2 ∨ e.2 = p.2 ++ [x]) ∨ e = (x.resolvedHref, [x]) := by
  rw [mergeInsert] at h
  by_cases hany : acc.any (fun p => p.1 = x.resolvedHref) = true
  · rw [if_pos hany] at h
    rcases List.mem_map.mp h with ⟨p, hp, he⟩
    left
    by_cases hc : p.1 = x.resolvedHref
    · rw [if_pos hc] at he
      exact ⟨p, hp, Or.inr (by rw [← he])⟩
    · rw [if_neg hc] at he
      exact ⟨p, hp, Or.inl (by rw [← he])⟩
  · rw [if_neg hany] at h
    rcases List.mem_append.mp h with h1 | h1
    · exact Or.inl ⟨e, h1, Or.inl rfl⟩
    · exact Or.inr (List.mem_singleton.mp h1)

theorem merged_group_records_aux :
    ∀ (L : List RemoteImportData) (acc : List (Str × List RemoteImportData)),
    ∀ p ∈ L.foldl mergeInsert acc, ∀ r ∈ p.2,
    (∃ q ∈ acc, r ∈ q.2) ∨ r ∈ L := by
  intro L
  induction L with
  | nil =>
    intro acc p hp r hr
    exact Or.inl ⟨p, hp, hr⟩
  | cons x rest ih =>
    intro acc p hp r hr
    rw [List.foldl_cons] at hp
    rcases ih _ p hp r hr with h1 | h1
    · rcases h1 with ⟨q, hq, hrq⟩
      rcases mem_mergeInsert hq with h2 | h2
      · rcases h2 with ⟨p0, hp0, hcase⟩
        rcases hcase with hc | hc
        · exact Or.inl ⟨p0, hp0, hc ▸ hrq⟩
        · rcases List.mem_append.mp (hc ▸ hrq) with h3 | h3
          · exact Or.inl ⟨p0, hp0, h3⟩
          · exact Or.inr ((List.mem_singleton.mp h3) ▸ List.mem_cons_self _ _)
      · rw [h2] at hrq
        exact Or.inr ((List.mem_singleton.mp hrq) ▸ List.mem_cons_self _ _)
    · exact Or.inr (List.mem_cons_of_mem _ h1)

theorem merged_group_records (imports : List RemoteImportData) :
    ∀ p ∈ mergedRemoteImportsOf imports, ∀ r ∈ p.2, r ∈ imports := by
  intro p hp r hr
  rcases merged_group_records_aux imports [] p hp r hr with h1 | h1
  · simp at h1
  · exact h1

theorem mem_setKey {α : Type} {o : List (Str × α)} {k : Str} {v : α}
    {e : Str × α} (h : e ∈ setKey o k v) : e ∈ o ∨ e = (k, v) := by
  induction o with
  | nil =>
    rw [setKey] at h
    exact Or.inr (List.mem_singleton.mp h)
  | cons p rest ih =>
    rcases p with ⟨k', v'⟩
    rw [setKey] at h
    by_cases hc : k' = k
    · rw [if_pos hc] at h
      rcases List.mem_cons.mp h with h1 | h1
      · exact Or.inr h1
      · exact Or.inl (List.mem_cons_of_mem _ h1)
    · rw [if_neg hc] at h
      rcases List.mem_cons.mp h with h1 | h1
      · exact Or.inl (h1 ▸ List.mem_cons_self _ _)
      · rcases ih h1 with h2 | h2
        · exact Or.inl (List.mem_cons_of_mem _ h2)
        · exact Or.inr h2

theorem setKey_fold_inner_keys (P : Str → Prop) :
    ∀ (datas : List RemoteImportData) (acc : List (Str × Str)) (d : Str),
    (∀ e ∈ acc, P e.1) → (∀ dd ∈ datas, P dd.importSpecifier) →
    ∀ e ∈ datas.foldl (fun a dd => setKey a dd.importSpecifier d) acc, P e.1 := by
  intro datas
  induction datas with
  | nil => exact fun acc d hacc _ e he => hacc e he
  | cons dd rest ih =>
    intro acc d hacc hdatas e he
    rw [List.foldl_cons] at he
    refine ih _ d ?_ (fun x hx => hdatas x (List.mem_cons_of_mem _ hx)) e he
    intro e' he'
    rcases mem_setKey he' with h1 | h1
    · exact hacc e' h1
    · rw [h1]
      exact hdatas dd (List.mem_cons_self _ _)

theorem npmImportsList_keys (P : Str → Prop) :
    ∀ (entries : List (Str × List RemoteImportData)) (acc : List (Str × Str))
      (cached : List Str) (npmDest : Str → Option Str),
    (∀ e ∈ acc, P e.1) →
    (∀ p ∈ entries, ∀ r ∈ p.2, P r.importSpecifier) →
    ∀ e ∈ entries.foldl
      (fun acc e =>
        if cached.contains e.1 then acc
        else if ¬ jsStartsWith e.1 (str "npm:") then acc
        else
          match npmDest e.1 with
          | none => acc
          | some d => e.2.foldl (fun a dd => setKey a dd.importSpecifier d) acc)
      acc, P e.1 := by
  intro entries
  induction entries with
  | nil => exact fun acc cached npmDest hacc _ e he => hacc e he
  | cons p rest ih =>
    intro acc cached npmDest hacc hentries e he
    rw [List.foldl_cons] at he
    refine ih _ cached npmDest ?_
      (fun q hq r hr => hentries q (List.mem_cons_of_mem _ hq) r hr) e he
    by_cases hc : cached.contains p.1 = true
    · rw [if_pos hc]
      exact hacc
    · rw [if_neg hc]
      by_cases hn : jsStartsWith p.1 (str "npm:") = true
      · rw [if_neg (fun hcon => hcon hn)]
        cases hd : npmDest p.1 with
        | none => exact hacc
        | some d =>
          exact setKey_fold_inner_keys P p.2 acc d hacc
            (fun dd hdd => hentries p (List.mem_cons_self _ _) dd hdd)
      · rw [if_pos hn]
        exact hacc

theorem tsConfigPathsRemote_keys (maps : List (Str → Str → UrlPath))
    (outputDir : List Str) (remoteImports : List RemoteImportData) :
    ∀ e ∈ tsConfigPathsRemote maps outputDir remoteImports,
    ∃ r ∈ remoteImports, e.1 = r.importSpecifier := by
  intro e he
  rcases List.mem_filterMap.mp he with ⟨r, hr, hsome⟩
  cases hres : resolveModuleSpecifierAll maps outputDir r.importerFilePath r.resolvedHref with
  | none =>
    rw [hres] at hsome
    exact absurd hsome (by simp)
  | some p =>
    rw [hres] at hsome
    injection hsome with hsome
    exact ⟨r, hr, by rw [← hsome]⟩

/-- C7: for a specifier in excludeUrls that is imported by an included source
file, the ambient-declaration file contains exactly one declare-module line for
it (even when several files import it), the specifier never reaches the
remote imports, no vendoring/fetch operation is performed for it, and the emitted
paths object has no entry for it (provided neither a pre-existing tsconfig nor
exactTypeModules nor extraPaths mention it). -/
theorem claim_c7_excluded_ambient
    (allImports : List ImportData) (excludeUrls : List Str)
    (resolver : Str → Str → UrlRes) (s : Str)
    (hs : s ∈ excludeUrls)
    (i : ImportData) (hi : i ∈ allImports) (hspec : i.importSpecifier = s)
    (hnl : ∀ t ∈ excludeUrls, '\n' ∉ t) :
    countOcc (ambientLine s)
        (splitOnNl (ambientContent (needsAmbientOf allImports excludeUrls))) = 1
    ∧ (∀ r ∈ collectRemoteImports allImports excludeUrls resolver,
        r.importSpecifier ≠ s ∧ r.resolvedHref ≠ s)
    ∧ (∀ cached fails acts,
        vendorLoop
            (mergedRemoteImportsOf (collectRemoteImports allImports excludeUrls resolver))
            cached fails = .ok acts →
        ∀ a ∈ acts, vendorActionSpec a ≠ s)
    ∧ (∀ maps outDir cached npmDest dest existing extraPaths exactTypeModules,
        lookupKey existing s = none →
        (∀ su ∈ exactTypeModules, (su : Str × Str).1 ≠ s) →
        (∀ e ∈ extraPaths, (e : Str × List Str).1 ≠ s) →
        lookupKey
          (tsConfigPathsObjectFinal existing
            (tsConfigPathsRemote maps outDir
                (collectRemoteImports allImports excludeUrls resolver)
              ++ tsConfigPathsExact exactTypeModules dest
              ++ npmImportsList
                  (mergedRemoteImportsOf
                    (collectRemoteImports allImports excludeUrls resolver))
                  cached npmDest)
            extraPaths) s = none) := by
  have hcontains : excludeUrls.contains s = true := List.elem_iff.mpr hs
  have hb : ∀ r ∈ collectRemoteImports allImports excludeUrls resolver,
      r.importSpecifier ≠ s ∧ r.resolvedHref ≠ s := by
    intro r hr
    have hp := collectRemote_props allImports excludeUrls resolver r hr
    refine ⟨fun heq => ?_, fun heq => ?_⟩
    · have h1 := hp.1
      rw [heq, hcontains] at h1
      simp at h1
    · have h1 := hp.2
      rw [heq, hcontains] at h1
      simp at h1
  refine ⟨?_, hb, ?_, ?_⟩
  · have hmemS : s ∈ needsAmbientOf allImports excludeUrls :=
      mem_needsAmbientOf.mpr ⟨i, hi, hspec, hcontains⟩
    have hnlS : ∀ t ∈ needsAmbientOf allImports excludeUrls, '\n' ∉ t := by
      intro t ht
      rcases mem_needsAmbientOf.mp ht with ⟨j, hj, hspec', hct⟩
      exact hnl t (List.elem_iff.mp hct)
    rw [splitOnNl_ambientContent _ hnlS, countOcc_append, countOcc_map_ambientLine,
      countOcc_eq_one_of_mem_nodup (needsAmbientOf_nodup _ _) hmemS, countOcc_cons]
    rw [if_neg (fun h => ambientLine_ne_nil s h.symm)]
    rfl
  · intro cached fails acts hok a ha heq
    have hmap : vendorActionSpec a ∈ acts.map vendorActionSpec :=
      List.mem_map_of_mem _ ha
    rw [vendorLoop_ok_spec _ _ _ _ hok] at hmap
    have hk := List.mem_of_mem_filter hmap
    rcases merged_keys_covered _ _ hk with ⟨r, hrl, hrk⟩
    exact (hb r hrl).2 (hrk.trans heq)
  · intro maps outDir cached npmDest dest existing extraPaths exactTypeModules
      hex hexact hextra
    rw [tsConfigPathsObjectFinal,
      lookupKey_foldl_setKey_ne (fun v : List Str => v) extraPaths _ s hextra,
      lookupKey_foldl_setKey_ne (fun v : Str => [v]) _ _ s ?_]
    · exact hex
    · intro e he
      rcases List.mem_append.mp he with h1 | h1
      · rcases List.mem_append.mp h1 with h2 | h2
        · rcases tsConfigPathsRemote_keys _ _ _ e h2 with ⟨r, hr, hke⟩
          rw [hke]
          exact (hb r hr).1
        · rcases List.mem_map.mp h2 with ⟨su, hsu, he'⟩
          rw [← he']
          exact hexact su hsu
      · rw [npmImportsList] at h1
        exact npmImportsList_keys (fun k => k ≠ s) _ [] cached npmDest
          (fun e' he' => absurd he' (List.not_mem_nil e'))
          (fun p hp r hr => (hb r (merged_group_records _ p hp r hr)).1)
          e h1

/-- Witness for C7: two files import the excluded specifier; the ambient file
carries exactly one declare-module line for it and the paths object has no
entry for it. -/
theorem claim_c7_witness :
    countOcc (ambientLine (str "https://example.test/broken.ts"))
        (splitOnNl (ambientContent
          (needsAmbientOf
            [⟨str "/proj/a.js", str "https://example.test/broken.ts"⟩,
             ⟨str "/proj/b.js", str "https://example.test/broken.ts"⟩]
            [str "https://example.test/broken.ts"]))) = 1
    ∧ lookupKey
        (tsConfigPathsObjectFinal []
          (tsConfigPathsRemote [] []
              (collectRemoteImports
                [⟨str "/proj/a.js", str "https://example.test/broken.ts"⟩,
                 ⟨str "/proj/b.js", str "https://example.test/broken.ts"⟩]
                [str "https://example.test/broken.ts"]
                (fun _ sp => ⟨str "https:", sp⟩))
            ++ tsConfigPathsExact [] (fun _ => [])
            ++ npmImportsList
                (mergedRemoteImportsOf
                  (collectRemoteImports
                    [⟨str "/proj/a.js", str "https://example.test/broken.ts"⟩,
                     ⟨str "/proj/b.js", str "https://example.test/broken.ts"⟩]
                    [str "https://example.test/broken.ts"]
                    (fun _ sp => ⟨str "https:", sp⟩)))
                [] (fun _ => none))
          []) (str "https://example.test/broken.ts") = none := by
  have h := claim_c7_excluded_ambient
    [⟨str "/proj/a.js", str "https://example.test/broken.ts"⟩,
     ⟨str "/proj/b.js", str "https://example.test/broken.ts"⟩]
    [str "https://example.test/broken.ts"]
    (fun _ sp => ⟨str "https:", sp⟩)
    (str "https://example.test/broken.ts")
    (List.mem_cons_self _ _)
    ⟨str "/proj/a.js", str "https://example.test/broken.ts"⟩
    (List.mem_cons_self _ _) rfl (by decide)
  exact ⟨h.1, h.2.2.2 [] [] [] (fun _ => none) (fun _ => []) [] [] [] rfl
    (fun su hsu => absurd hsu (List.not_mem_nil su))
    (fun e he => absurd he (List.not_mem_nil e))⟩

/-!
Round trip: lemmas about the transformer and resolution into the vendor tree.
-/

theorem suffix_eq_of_length_eq {t₁ t₂ l : Str} (h1 : t₁ <:+ l) (h2 : t₂ <:+ l)
    (hl : t₁.length = t₂.length) : t₁ = t₂ := by
  rcases h1 with ⟨p₁, hp₁⟩
  rcases h2 with ⟨p₂, hp₂⟩
  have heq : p₁ ++ t₁ = p₂ ++ t₂ := hp₁.trans hp₂.symm
  have hlen : p₁.length = p₂.length := by
    have := congrArg List.length heq
    simp only [List.length_append] at this
    omega
  exact (List.append_inj heq hlen).2

theorem jsEndsWith_append_js (x : Str) :
    jsEndsWith (x ++ str ".js") (str ".ts") = false := by
  rw [jsEndsWith, decide_eq_false_iff_not]
  intro h
  have h2 : str ".js" <:+ x ++ str ".js" := List.suffix_append x _
  have := suffix_eq_of_length_eq h h2 (by rfl)
  simp [str] at this

theorem transformSpecifier_no_ts {resolveAll : Str → Option (List Str)} {s : Str}
    {p : List Str} (h : resolveAll s = some p) :
    jsEndsWith (transformSpecifier resolveAll s) (str ".ts") = false := by
  rw [transformSpecifier, h]
  by_cases he : jsEndsWith (joinSlash p) (str ".ts") = true
  · simp only [if_pos he]
    exact jsEndsWith_append_js _
  · simp only [if_neg he]
    exact Bool.eq_false_iff.mpr he

theorem commonRun_eq_right : ∀ (a b : List Str), commonRun a b = b ↔ b <+: a := by
  intro a b
  induction b generalizing a with
  | nil =>
    cases a with
    | nil => simp [commonRun]
    | cons x xs => simp [commonRun]
  | cons y ys ih =>
    cases a with
    | nil =>
      constructor
      · intro h
        rw [show commonRun [] (y :: ys) = [] from rfl] at h
        exact absurd h (by simp)
      · intro h
        exact absurd (List.IsPrefix.length_le h) (by simp)
    | cons x xs =>
      rw [show commonRun (x :: xs) (y :: ys)
        = if x = y then x :: commonRun xs ys else [] from rfl]
      by_cases hxy : x = y
      · rw [if_pos hxy]
        constructor
        · intro h
          have h1 := List.head_eq_of_cons_eq h
          have h2 := List.tail_eq_of_cons_eq h
          rw [hxy]
          exact List.cons_prefix_cons.mpr ⟨rfl, (ih xs).mp h2⟩
        · intro h
          rcases List.cons_prefix_cons.mp h with ⟨hy, hys⟩
          rw [hxy, (ih xs).mpr hys]
      · rw [if_neg hxy]
        constructor
        · intro h
          exact absurd h (by simp)
        · intro h
          rcases List.cons_prefix_cons.mp h with ⟨hy, hys⟩
          exact absurd hy.symm hxy

theorem resolveModuleSpecifierAll_some_inside
    {maps : List (Str → Str → UrlPath)} {outputDir : List Str}
    {baseUrl moduleSpecifier : Str} {p : List Str}
    (h : resolveModuleSpecifierAll maps outputDir baseUrl moduleSpecifier = some p) :
    outputDir <+: p := by
  induction maps with
  | nil =>
    rw [resolveModuleSpecifierAll] at h
    exact absurd h (by simp)
  | cons m rest ih =>
    rw [resolveModuleSpecifierAll] at h
    by_cases h1 : (m baseUrl moduleSpecifier).protocol ≠ str "file:"
    · rw [if_pos h1] at h
      exact ih h
    · rw [if_neg h1] at h
      by_cases h2 : commonRun (m baseUrl moduleSpecifier).path outputDir ≠ outputDir
      · rw [if_pos h2] at h
        exact ih h
      · rw [if_neg h2] at h
        injection h with h
        rw [← h]
        exact (commonRun_eq_right _ _).mp (not_not.mp h2)

theorem transformFile_no_ts (resolveAll : Str → Option (List Str))
    (f : List ModuleStatement)
    (hres : ∀ st ∈ f, ∀ s, stmtSpecifier st = some s → (resolveAll s).isSome) :
    ∀ st ∈ transformFile resolveAll f, ∀ s', stmtSpecifier st = some s' →
      jsEndsWith s' (str ".ts") = false := by
  intro st hst s' hs'
  rcases List.mem_map.mp hst with ⟨st₀, hst₀, heq⟩
  cases st₀ with
  | importDecl s =>
    rw [← heq] at hs'
    injection hs' with hs'
    rcases Option.isSome_iff_exists.mp
      (hres _ hst₀ s rfl) with ⟨p, hp⟩
    rw [← hs']
    exact transformSpecifier_no_ts hp
  | exportDecl s =>
    rw [← heq] at hs'
    injection hs' with hs'
    rcases Option.isSome_iff_exists.mp
      (hres _ hst₀ s rfl) with ⟨p, hp⟩
    rw [← hs']
    exact transformSpecifier_no_ts hp
  | other =>
    rw [← heq] at hs'
    exact absurd hs' (by simp [stmtSpecifier])

/-- C8: round trip.  When the collected remote import of a .ts remote URL
specifier resolves through the vendor import maps to a local path, the
emitted paths object maps the literal specifier to that local path, the path
lies under the output directory, and in a rewritten vendored file every
rewritten import/export specifier that resolves into the vendor tree carries no .ts
ending any more — a .ts ending is renamed to .js. -/
theorem claim_c8_round_trip
    (maps : List (Str → Str → UrlPath)) (outputDir : List Str)
    (r : RemoteImportData) (p : List Str)
    (hres : resolveModuleSpecifierAll maps outputDir r.importerFilePath r.resolvedHref
      = some p)
    (fileName : Str) (f : List ModuleStatement)
    (hall : ∀ st ∈ f, ∀ s, stmtSpecifier st = some s →
        (resolveModuleSpecifierAll maps outputDir fileName s).isSome) :
    lookupKey
        (tsConfigPathsObjectFinal [] (tsConfigPathsRemote maps outputDir [r]) [])
        r.importSpecifier = some [joinSlash p]
    ∧ outputDir <+: p
    ∧ (∀ st ∈ transformFile (resolveModuleSpecifierAll maps outputDir fileName) f,
        ∀ s', stmtSpecifier st = some s' → jsEndsWith s' (str ".ts") = false) := by
  refine ⟨?_, resolveModuleSpecifierAll_some_inside hres, transformFile_no_ts _ f hall⟩
  have hentry : tsConfigPathsRemote maps outputDir [r]
      = [(r.importSpecifier, joinSlash p)] := by
    rw [tsConfigPathsRemote]
    simp [hres]
  rw [hentry, tsConfigPathsObjectFinal, List.foldl_nil, List.foldl_cons, List.foldl_nil]
  exact lookupKey_setKey_self [] r.importSpecifier [joinSlash p]

/-- Witness for C8 at a concrete import of a remote .ts module. -/
theorem claim_c8_witness :
    lookupKey
        (tsConfigPathsObjectFinal []
          (tsConfigPathsRemote
            [fun _ _ => ⟨str "file:", [str "out", str "vendor", str "mod.ts"]⟩]
            [str "out"]
            [⟨str "/proj/a.js", str "https://example.test/mod.ts",
              str "https://example.test/mod.ts"⟩])
          [])
        (str "https://example.test/mod.ts")
      = some [str "out/vendor/mod.ts"]
    ∧ jsEndsWith
        (transformSpecifier
          (resolveModuleSpecifierAll
            [fun _ _ => ⟨str "file:", [str "out", str "vendor", str "mod.ts"]⟩]
            [str "out"] (str "/proj/out/vendor/mod.ts"))
          (str "https://example.test/other.ts"))
        (str ".ts") = false := by
  have h := claim_c8_round_trip
    [fun _ _ => ⟨str "file:", [str "out", str "vendor", str "mod.ts"]⟩]
    [str "out"]
    ⟨str "/proj/a.js", str "https://example.test/mod.ts",
      str "https://example.test/mod.ts"⟩
    [str "out", str "vendor", str "mod.ts"]
    (by rfl)
    (str "/proj/out/vendor/mod.ts")
    [ModuleStatement.importDecl (str "https://example.test/other.ts")]
    (by
      intro st hst s hs
      rw [List.mem_singleton.mp hst] at hs
      injection hs with hs
      rw [← hs]
      rfl)
  refine ⟨h.1, ?_⟩
  exact h.2.2 (ModuleStatement.importDecl
      (transformSpecifier
        (resolveModuleSpecifierAll
          [fun _ _ => ⟨str "file:", [str "out", str "vendor", str "mod.ts"]⟩]
          [str "out"] (str "/proj/out/vendor/mod.ts"))
        (str "https://example.test/other.ts")))
    (List.mem_singleton.mpr rfl) _ rfl

/-!
The run trace: lemmas.
-/

theorem eventsToActions_append (c : CacheFileData) :
    ∀ (a b : List Event),
    eventsToActions c (a ++ b)
      = eventsToActions c a ++ eventsToActions (stateAfterEvents c a) b := by
  intro a
  induction a generalizing c with
  | nil => intro b; rfl
  | cons e rest ih =>
    intro b
    cases e with
    | write p =>
      rw [List.cons_append, eventsToActions, eventsToActions, stateAfterEvents,
        ih (applySetProps c p) b, List.cons_append]
    | act a0 =>
      rw [List.cons_append, eventsToActions, eventsToActions, stateAfterEvents,
        ih c b, List.cons_append]

theorem length_eventsToActions (c : CacheFileData) :
    ∀ (es : List Event), (eventsToActions c es).length = es.length := by
  intro es
  induction es generalizing c with
  | nil => rfl
  | cons e rest ih =>
    cases e with
    | write p => rw [eventsToActions, List.length_cons, List.length_cons, ih]
    | act a0 => rw [eventsToActions, List.length_cons, List.length_cons, ih]

theorem mem_eventsToActions {c : CacheFileData} {es : List Event} {a : Action}
    (h : a ∈ eventsToActions c es) :
    (∃ d, a = .cacheWrite d) ∨ (∃ a0, Event.act a0 ∈ es ∧ a = .plain a0) := by
  induction es generalizing c with
  | nil => simp [eventsToActions] at h
  | cons e rest ih =>
    cases e with
    | write p =>
      rw [eventsToActions] at h
      rcases List.mem_cons.mp h with h1 | h1
      · exact Or.inl ⟨_, h1⟩
      · rcases ih h1 with h2 | ⟨a0, ha0, haa⟩
        · exact Or.inl h2
        · exact Or.inr ⟨a0, List.mem_cons_of_mem _ ha0, haa⟩
    | act b0 =>
      rw [eventsToActions] at h
      rcases List.mem_cons.mp h with h1 | h1
      · exact Or.inr ⟨b0, List.mem_cons_self _ _, h1⟩
      · rcases ih h1 with h2 | ⟨a0, ha0, haa⟩
        · exact Or.inl h2
        · exact Or.inr ⟨a0, List.mem_cons_of_mem _ ha0, haa⟩

theorem stateAfterEvents_append (c : CacheFileData) :
    ∀ (a b : List Event),
    stateAfterEvents c (a ++ b) = stateAfterEvents (stateAfterEvents c a) b := by
  intro a
  induction a generalizing c with
  | nil => intro b; rfl
  | cons e rest ih =>
    intro b
    cases e with
    | write p => rw [List.cons_append, stateAfterEvents, stateAfterEvents, ih]
    | act a0 => rw [List.cons_append, stateAfterEvents, stateAfterEvents, ih]

theorem stateAfterEvents_no_write {es : List Event} (h : hasWrite es = false) :
    ∀ c, stateAfterEvents c es = c := by
  induction es with
  | nil => exact fun c => rfl
  | cons e rest ih =>
    intro c
    cases e with
    | write p => exact absurd h (by rw [hasWrite]; simp)
    | act a0 =>
      rw [hasWrite] at h
      rw [stateAfterEvents, ih h]

theorem no_write_events_actions {es : List Event} (h : hasWrite es = false) :
    ∀ c, ∀ a ∈ eventsToActions c es, ∀ d, a ≠ .cacheWrite d := by
  induction es with
  | nil =>
    intro c a ha
    simp [eventsToActions] at ha
  | cons e rest ih =>
    intro c a ha d
    cases e with
    | write p => exact absurd h (by rw [hasWrite]; simp)
    | act a0 =>
      rw [hasWrite] at h
      rw [eventsToActions] at ha
      rcases List.mem_cons.mp ha with h1 | h1
      · rw [h1]
        simp
      · exact ih h c a h1 d

theorem persistedAfter_append (s : Option CacheFileData) (a b : List Action) :
    persistedAfter s (a ++ b) = persistedAfter (persistedAfter s a) b := by
  rw [persistedAfter, persistedAfter, persistedAfter, List.foldl_append]

theorem persistedAfter_no_write {acts : List Action}
    (h : ∀ a ∈ acts, ∀ d, a ≠ .cacheWrite d) (s : Option CacheFileData) :
    persistedAfter s acts = s := by
  induction acts generalizing s with
  | nil => rfl
  | cons a rest ih =>
    cases a with
    | cacheWrite d => exact absurd rfl (h _ (List.mem_cons_self _ _) d)
    | plain a0 =>
      rw [persistedAfter, List.foldl_cons]
      exact ih (fun x hx => h x (List.mem_cons_of_mem _ hx)) s

theorem persistedAfter_eventsToActions {es : List Event} (h : hasWrite es = true) :
    ∀ (c : CacheFileData) (s : Option CacheFileData),
    persistedAfter s (eventsToActions c es) = some (stateAfterEvents c es) := by
  induction es with
  | nil => exact absurd h (by rw [hasWrite]; simp)
  | cons e rest ih =>
    intro c s
    cases e with
    | write p =>
      rw [eventsToActions, stateAfterEvents]
      rw [show persistedAfter s (.cacheWrite (applySetProps c p)
          :: eventsToActions (applySetProps c p) rest)
        = persistedAfter (some (applySetProps c p))
            (eventsToActions (applySetProps c p) rest) from rfl]
      by_cases hw : hasWrite rest = true
      · exact ih hw _ _
      · have hw' : hasWrite rest = false := Bool.eq_false_iff.mpr hw
        rw [persistedAfter_no_write (no_write_events_actions hw' _),
          stateAfterEvents_no_write hw']
    | act a0 =>
      rw [hasWrite] at h
      rw [eventsToActions, stateAfterEvents]
      rw [show persistedAfter s (.plain a0 :: eventsToActions c rest)
        = persistedAfter s (eventsToActions c rest) from rfl]
      exact ih h c s

theorem hasWrite_append (a b : List Event) :
    hasWrite (a ++ b) = (hasWrite a || hasWrite b) := by
  induction a with
  | nil => rfl
  | cons e rest ih =>
    cases e with
    | write p => rfl
    | act a0 =>
      rw [List.cons_append, hasWrite, hasWrite, ih]

theorem hasWrite_map_acts {α : Type} (f : α → Event)
    (h : ∀ x, ∃ a0, f x = .act a0) :
    ∀ (l : List α), hasWrite (l.map f) = false := by
  intro l
  induction l with
  | nil => rfl
  | cons x rest ih =>
    rcases h x with ⟨a0, ha0⟩
    rw [List.map_cons, ha0, hasWrite, ih]

theorem hasWrite_of_mem_write {es : List Event} {p : CacheSetProps}
    (h : Event.write p ∈ es) : hasWrite es = true := by
  induction es with
  | nil => simp at h
  | cons e rest ih =>
    cases e with
    | write q => rfl
    | act a0 =>
      rw [hasWrite]
      rcases List.mem_cons.mp h with h1 | h1
      · exact absurd h1 (by simp)
      · exact ih h1

theorem hasWrite_basePre (c : RunConfig) : hasWrite (basePreEvents c) = true := by
  apply hasWrite_of_mem_write (p := { fetchedExactTypeModules := some c.exactTypeModules })
  rw [basePreEvents]
  exact List.mem_append.mpr (Or.inr (List.mem_singleton.mpr rfl))

theorem hasWrite_mid (c : RunConfig) : hasWrite (midEvents c) = false := by
  rw [midEvents]
  rw [hasWrite_append, hasWrite_append, hasWrite_append, hasWrite_append,
    hasWrite_append]
  have hv : hasWrite
      ((vendorActionsNoFail (mergedRemoteImportsOf c.remoteImports)
        (cachedImportSpecifiersOf c)).map Event.act) = false :=
    hasWrite_map_acts _ (fun x => ⟨x, rfl⟩) _
  have hr : hasWrite
      ((List.range c.numVendoredFiles).map
        (fun i => Event.act (PlainAction.rewriteFile i))) = false :=
    hasWrite_map_acts _ (fun i => ⟨PlainAction.rewriteFile i, rfl⟩) _
  have ha : hasWrite
      (if c.needsAmbient ≠ [] then [Event.act .writeAmbientFile] else []) = false := by
    by_cases hn : c.needsAmbient ≠ []
    · rw [if_pos hn]
      rfl
    · rw [if_neg hn]
      rfl
  rw [hv, hr, ha]
  rfl

theorem applySetProps_vendored_none {c : CacheFileData} {p : CacheSetProps}
    (h : p.vendoredImports = none) :
    (applySetProps c p).vendoredImports = c.vendoredImports := by
  rw [applySetProps]
  rw [h]

theorem stateAfterEvents_vendored_unchanged :
    ∀ (es : List Event),
    (∀ p, Event.write p ∈ es → p.vendoredImports = none) →
    ∀ c, (stateAfterEvents c es).vendoredImports = c.vendoredImports := by
  intro es
  induction es with
  | nil => exact fun _ c => rfl
  | cons e rest ih =>
    intro h c
    cases e with
    | write p =>
      rw [stateAfterEvents, ih (fun q hq => h q (List.mem_cons_of_mem _ hq)),
        applySetProps_vendored_none (h p (List.mem_cons_self _ _))]
    | act a0 =>
      rw [stateAfterEvents]
      exact ih (fun q hq => h q (List.mem_cons_of_mem _ hq)) c

theorem basePre_writes_vendored_none (c : RunConfig) :
    ∀ p, Event.write p ∈ basePreEvents c → p.vendoredImports = none := by
  intro p hp
  rw [basePreEvents] at hp
  rcases List.mem_append.mp hp with h1 | h1
  · rcases List.mem_append.mp h1 with h2 | h2
    · rcases List.mem_append.mp h2 with h3 | h3
      · rcases List.mem_append.mp h3 with h4 | h4
        · rcases List.mem_append.mp h4 with h5 | h5
          · rcases List.mem_append.mp h5 with h6 | h6
            · by_cases hd : denoTypesVersionOf c ≠ c.desiredDenoTypesVersion
              · rw [if_pos hd] at h6
                injection List.mem_singleton.mp h6 with h7
                rw [h7]
              · rw [if_neg hd] at h6
                simp at h6
            · injection List.mem_singleton.mp h6 with h7
              rw [h7]
          · rcases List.mem_flatMap.mp h5 with ⟨fu, _, hin⟩
            by_cases hc : lookupKey (cachedTypeRootsOf c) fu.1 ≠ some fu.2
            · rw [if_pos hc] at hin
              simp at hin
            · rw [if_neg hc] at hin
              simp at hin
        · injection List.mem_singleton.mp h4 with h7
          rw [h7]
      · injection List.mem_singleton.mp h3 with h7
        rw [h7]
    · rcases List.mem_flatMap.mp h2 with ⟨su, _, hin⟩
      by_cases hc : lookupKey (cachedExactTypeModulesOf c) su.1 ≠ some su.2
      · rw [if_pos hc] at hin
        simp at hin
      · rw [if_neg hc] at hin
        simp at hin
  · injection List.mem_singleton.mp h1 with h7
    rw [h7]

theorem basePre_acts (c : RunConfig) :
    ∀ a0, Event.act a0 ∈ basePreEvents c →
    (∃ n, a0 = .fetchTypeRoot n) ∨ (∃ n, a0 = .fetchExactType n) := by
  intro a0 hp
  rw [basePreEvents] at hp
  rcases List.mem_append.mp hp with h1 | h1
  · rcases List.mem_append.mp h1 with h2 | h2
    · rcases List.mem_append.mp h2 with h3 | h3
      · rcases List.mem_append.mp h3 with h4 | h4
        · rcases List.mem_append.mp h4 with h5 | h5
          · rcases List.mem_append.mp h5 with h6 | h6
            · by_cases hd : denoTypesVersionOf c ≠ c.desiredDenoTypesVersion
              · rw [if_pos hd] at h6
                exact absurd (List.mem_singleton.mp h6) (by simp)
              · rw [if_neg hd] at h6
                simp at h6
            · exact absurd (List.mem_singleton.mp h6) (by simp)
          · rcases List.mem_flatMap.mp h5 with ⟨fu, _, hin⟩
            by_cases hc : lookupKey (cachedTypeRootsOf c) fu.1 ≠ some fu.2
            · rw [if_pos hc] at hin
              injection List.mem_singleton.mp hin with h7
              exact Or.inl ⟨fu.1, h7⟩
            · rw [if_neg hc] at hin
              simp at hin
        · exact absurd (List.mem_singleton.mp h4) (by simp)
      · exact absurd (List.mem_singleton.mp h3) (by simp)
    · rcases List.mem_flatMap.mp h2 with ⟨su, _, hin⟩
      by_cases hc : lookupKey (cachedExactTypeModulesOf c) su.1 ≠ some su.2
      · rw [if_pos hc] at hin
        injection List.mem_singleton.mp hin with h7
        exact Or.inr ⟨su.1, h7⟩
      · rw [if_neg hc] at hin
        simp at hin
  · exact absurd (List.mem_singleton.mp h1) (by simp)

theorem reset_no_act (c : RunConfig) :
    ∀ a0, Event.act a0 ∈ resetEvents c → False := by
  intro a0 h
  rw [resetEvents] at h
  by_cases hex : c.cacheOnDisk.isSome = true
  · rw [if_pos hex] at h
    exact absurd (List.mem_singleton.mp h) (by simp)
  · rw [if_neg hex] at h
    simp at h

theorem persistedVendoredList_some (s : CacheFileData) :
    persistedVendoredList (some s) = s.vendoredImports.getD [] := rfl

theorem preVendor_state_vendored (c : RunConfig) :
    (stateAfterEvents (initNewCacheData c)
        (basePreEvents c ++ resetEvents c)).vendoredImports.getD [] = [] := by
  rw [stateAfterEvents_append]
  by_cases hex : c.cacheOnDisk.isSome = true
  · rw [resetEvents, if_pos hex]
    rfl
  · rw [resetEvents, if_neg hex]
    rw [show stateAfterEvents
        (stateAfterEvents (initNewCacheData c) (basePreEvents c)) [] =
      stateAfterEvents (initNewCacheData c) (basePreEvents c) from rfl]
    rw [stateAfterEvents_vendored_unchanged _ (basePre_writes_vendored_none c)]
    rw [initNewCacheData, Option.not_isSome_iff_eq_none.mp hex]
    rfl

theorem allCachedCheck_nil_cached {imports : List RemoteImportData}
    (h : imports ≠ []) : allCachedCheck [] imports = false := by
  cases imports with
  | nil => exact absurd rfl h
  | cons r rest =>
    rw [allCachedCheck, List.all_cons,
      show ([] : List Str).contains r.resolvedHref = false from rfl, Bool.false_and]

/-- C3: when every collected resolved remote specifier is already in the
previous run's persisted vendoredImports set (including the vacuous case of no
remote imports at all), generateTypes returns right after the check: the run
trace is exactly the pre-check trace, containing no vendoring or npm fetch, no
vendored-file rewrite, no tsconfig write and no ambient-modules write. -/
theorem claim_c3_early_exit (c : RunConfig) (h : allCachedInit c = true) :
    runActions c = eventsToActions (initNewCacheData c) (basePreEvents c)
    ∧ (∀ a ∈ runActions c,
        isVendorAction a = false ∧ isRewriteAction a = false
        ∧ a ≠ .plain .writeTsconfigFile ∧ a ≠ .plain .writeAmbientFile) := by
  have heq : runActions c = eventsToActions (initNewCacheData c) (basePreEvents c) := by
    rw [runActions, runEvents, if_pos h, List.append_nil]
  refine ⟨heq, ?_⟩
  intro a ha
  rw [heq] at ha
  rcases mem_eventsToActions ha with ⟨d, hd⟩ | ⟨a0, ha0, haa⟩
  · subst hd
    exact ⟨rfl, rfl, by simp, by simp⟩
  · subst haa
    rcases basePre_acts c a0 ha0 with ⟨n, hn⟩ | ⟨n, hn⟩ <;> subst hn <;>
      exact ⟨rfl, rfl, by simp, by simp⟩

/-- Witness for C3: a run whose single collected resolved specifier is in the
persisted vendoredImports set performs no vendoring, rewriting or tsconfig
write. -/
theorem claim_c3_witness :
    (runActions
        { cacheOnDisk := some { vendoredImports := some [str "https://example.test/mod.ts"] }
          desiredDenoTypesVersion := str "1.25.0"
          extraTypeRoots := []
          exactTypeModules := []
          remoteImports := [⟨str "/proj/a.js", str "https://example.test/mod.ts",
            str "https://example.test/mod.ts"⟩]
          needsAmbient := []
          numVendoredFiles := 3 }).all
      (fun a => !(isVendorAction a) && !(isRewriteAction a)
        && !(decide (a = .plain .writeTsconfigFile))) = true := by
  apply List.all_eq_true.mpr
  intro a ha
  have h := (claim_c3_early_exit
    { cacheOnDisk := some { vendoredImports := some [str "https://example.test/mod.ts"] }
      desiredDenoTypesVersion := str "1.25.0"
      extraTypeRoots := []
      exactTypeModules := []
      remoteImports := [⟨str "/proj/a.js", str "https://example.test/mod.ts",
        str "https://example.test/mod.ts"⟩]
      needsAmbient := []
      numVendoredFiles := 3 } (by rfl)).2 a ha
  simp [h.1, h.2.1, h.2.2.1]

/-- C2: a run that proceeds past the early-exit check resets the persisted
vendoredImports set before any vendoring action (the trace up to the reset
contains no vendoring, rewriting or tsconfig write, and the cache file on disk
at that point carries an empty vendored set), writes the complete vendored set
only as the very last action, and for every point from the reset until before
completion the persisted state would make the next run's early-exit check fail
whenever at least one remote import is collected. -/
theorem claim_c2_cache_reset (c : RunConfig)
    (h1 : allCachedInit c = false) (h2 : c.remoteImports ≠ []) :
    (∀ a ∈ (runActions c).take (preVendorLen c),
        isVendorAction a = false ∧ isRewriteAction a = false
        ∧ a ≠ .plain .writeTsconfigFile)
    ∧ persistedVendoredList
        (persistedAfter c.cacheOnDisk ((runActions c).take (preVendorLen c))) = []
    ∧ (∀ k, preVendorLen c ≤ k → k < (runActions c).length →
        allCachedCheck
          (persistedVendoredList
            (persistedAfter c.cacheOnDisk ((runActions c).take k)))
          c.remoteImports = false)
    ∧ persistedVendoredList (persistedAfter c.cacheOnDisk (runActions c))
        = jsSetOf (c.remoteImports.map (·.resolvedHref)) := by
  have hev : runEvents c
      = (basePreEvents c ++ resetEvents c) ++ (midEvents c ++ finalEvents c) := by
    rw [runEvents, if_neg (by simp [h1])]
    simp [List.append_assoc]
  have hact : runActions c
      = eventsToActions (initNewCacheData c) (basePreEvents c ++ resetEvents c)
        ++ eventsToActions
            (stateAfterEvents (initNewCacheData c) (basePreEvents c ++ resetEvents c))
            (midEvents c ++ finalEvents c) := by
    rw [runActions, hev, eventsToActions_append]
  have hlenA : (eventsToActions (initNewCacheData c)
      (basePreEvents c ++ resetEvents c)).length = preVendorLen c := by
    rw [length_eventsToActions, List.length_append, preVendorLen]
  have htakeA : (runActions c).take (preVendorLen c)
      = eventsToActions (initNewCacheData c) (basePreEvents c ++ resetEvents c) := by
    rw [hact, List.take_append_of_le_length (le_of_eq hlenA.symm),
      List.take_of_length_le (le_of_eq hlenA)]
  have hwritePre : hasWrite (basePreEvents c ++ resetEvents c) = true := by
    rw [hasWrite_append, hasWrite_basePre, Bool.true_or]
  have hpersistA : persistedAfter c.cacheOnDisk
      (eventsToActions (initNewCacheData c) (basePreEvents c ++ resetEvents c))
      = some (stateAfterEvents (initNewCacheData c)
          (basePreEvents c ++ resetEvents c)) :=
    persistedAfter_eventsToActions hwritePre _ _
  have hBsplit : ∀ S : CacheFileData,
      eventsToActions S (midEvents c ++ finalEvents c)
        = eventsToActions S (midEvents c)
          ++ [Action.cacheWrite (applySetProps (stateAfterEvents S (midEvents c))
              { vendoredImports :=
                  some (jsSetOf (c.remoteImports.map (·.resolvedHref))) })] := by
    intro S
    rw [eventsToActions_append]
    rfl
  have hnoWriteMid : ∀ (S : CacheFileData), ∀ a ∈ eventsToActions S (midEvents c),
      ∀ d, a ≠ .cacheWrite d :=
    fun S => no_write_events_actions (hasWrite_mid c) S
  have hlen2 : (runActions c).length
      = preVendorLen c + ((midEvents c).length + 1) := by
    rw [hact, List.length_append, hlenA, length_eventsToActions, List.length_append]
    rfl
  refine ⟨?_, ?_, ?_, ?_⟩
  · intro a ha
    rw [htakeA] at ha
    rcases mem_eventsToActions ha with ⟨d, hd⟩ | ⟨a0, ha0, haa⟩
    · subst hd
      exact ⟨rfl, rfl, by simp⟩
    · subst haa
      rcases List.mem_append.mp ha0 with hb | hb
      · rcases basePre_acts c a0 hb with ⟨n, hn⟩ | ⟨n, hn⟩ <;> subst hn <;>
          exact ⟨rfl, rfl, by simp⟩
      · exact absurd hb (fun hcon => reset_no_act c a0 hcon)
  · rw [htakeA, hpersistA, persistedVendoredList_some, preVendor_state_vendored]
  · intro k hk1 hk2
    have hm : k - preVendorLen c ≤ (midEvents c).length := by
      rw [hlen2] at hk2
      omega
    have htakek : (runActions c).take k
        = eventsToActions (initNewCacheData c) (basePreEvents c ++ resetEvents c)
          ++ (eventsToActions
              (stateAfterEvents (initNewCacheData c)
                (basePreEvents c ++ resetEvents c))
              (midEvents c)).take (k - preVendorLen c) := by
      rw [hact, List.take_append_eq_append_take,
        List.take_of_length_le (by rw [hlenA]; exact hk1), hlenA, hBsplit,
        List.take_append_of_le_length (by rw [length_eventsToActions]; exact hm)]
    rw [htakek, persistedAfter_append, hpersistA,
      persistedAfter_no_write
        (fun a ha d => hnoWriteMid _ a (List.mem_of_mem_take ha) d) _,
      persistedVendoredList_some, preVendor_state_vendored]
    exact allCachedCheck_nil_cached h2
  · rw [hact, persistedAfter_append, hpersistA, hBsplit, persistedAfter_append,
      persistedAfter_no_write (hnoWriteMid _) _]
    rw [show persistedAfter
        (some (stateAfterEvents (initNewCacheData c)
          (basePreEvents c ++ resetEvents c)))
        [Action.cacheWrite
          (applySetProps
            (stateAfterEvents
              (stateAfterEvents (initNewCacheData c)
                (basePreEvents c ++ resetEvents c))
              (midEvents c))
            { vendoredImports :=
                some (jsSetOf (c.remoteImports.map (·.resolvedHref))) })]
      = some (applySetProps
          (stateAfterEvents
            (stateAfterEvents (initNewCacheData c)
              (basePreEvents c ++ resetEvents c))
            (midEvents c))
          { vendoredImports :=
              some (jsSetOf (c.remoteImports.map (·.resolvedHref))) }) from rfl]
    rw [persistedVendoredList_some]
    rfl

/-- Witness for C2: a run with one uncached remote import is simulated to fail
right after the defensive reset; the next run's early-exit check fails. -/
theorem claim_c2_witness :
    allCachedCheck
      (persistedVendoredList
        (persistedAfter
          (RunConfig.cacheOnDisk
            { cacheOnDisk := some { vendoredImports := some [str "https://old.test/old.ts"] }
              desiredDenoTypesVersion := str "1.25.0"
              extraTypeRoots := []
              exactTypeModules := []
              remoteImports := [⟨str "/proj/a.js", str "https://example.test/mod.ts",
                str "https://example.test/mod.ts"⟩]
              needsAmbient := []
              numVendoredFiles := 2 })
          ((runActions
            { cacheOnDisk := some { vendoredImports := some [str "https://old.test/old.ts"] }
              desiredDenoTypesVersion := str "1.25.0"
              extraTypeRoots := []
              exactTypeModules := []
              remoteImports := [⟨str "/proj/a.js", str "https://example.test/mod.ts",
                str "https://example.test/mod.ts"⟩]
              needsAmbient := []
              numVendoredFiles := 2 }).take
            (preVendorLen
              { cacheOnDisk := some { vendoredImports := some [str "https://old.test/old.ts"] }
                desiredDenoTypesVersion := str "1.25.0"
                extraTypeRoots := []
                exactTypeModules := []
                remoteImports := [⟨str "/proj/a.js", str "https://example.test/mod.ts",
                  str "https://example.test/mod.ts"⟩]
                needsAmbient := []
                numVendoredFiles := 2 }))))
      [⟨str "/proj/a.js", str "https://example.test/mod.ts",
        str "https://example.test/mod.ts"⟩] = false := by
  exact (claim_c2_cache_reset
    { cacheOnDisk := some { vendoredImports := some [str "https://old.test/old.ts"] }
      desiredDenoTypesVersion := str "1.25.0"
      extraTypeRoots := []
      exactTypeModules := []
      remoteImports := [⟨str "/proj/a.js", str "https://example.test/mod.ts",
        str "https://example.test/mod.ts"⟩]
      needsAmbient := []
      numVendoredFiles := 2 } (by rfl) (by simp)).2.2.1
    _ (Nat.le_refl _) (by decide)

end DenoTscHelper
